import Mathlib

set_option maxRecDepth 100000

/-!
Verification of the `rss-to-x` scripts.

JavaScript strings are modelled as lists of Unicode code points
(`List Char`): the source consistently iterates titles with `[...title]`,
i.e. by code points.  Pure functions of the scripts are translated
directly; the external collaborators (the `twitter-text` library's
`parseTweet`, Unicode NFKC normalisation, date parsing, the network) are
modelled as stated in the doc comment of each corresponding definition.
-/

namespace RssToX

/-- The set of JavaScript `\s` (RegExp whitespace) code points, as listed in
the ECMAScript specification (WhiteSpace ∪ LineTerminator). -/
def jsWs (c : Char) : Bool :=
  c = ' ' ∨ c = '\t' ∨ c = '\n' ∨ c.toNat = 11 ∨ c.toNat = 12 ∨ c = '\r' ∨
  c.toNat = 0xA0 ∨ c.toNat = 0x1680 ∨
  (0x2000 ≤ c.toNat ∧ c.toNat ≤ 0x200A) ∨
  c.toNat = 0x2028 ∨ c.toNat = 0x2029 ∨ c.toNat = 0x202F ∨
  c.toNat = 0x205F ∨ c.toNat = 0x3000 ∨ c.toNat = 0xFEFF

/-- Model of `s.replace(/\s+/g, " ")`: every maximal run of whitespace becomes a
single space.  The Boolean state records whether the previous character was
part of a whitespace run. -/
def collapseWsGo : Bool → List Char → List Char
  | _, [] => []
  | prevWs, c :: cs =>
    if jsWs c then
      if prevWs then collapseWsGo true cs else ' ' :: collapseWsGo true cs
    else c :: collapseWsGo false cs

/-- Model of `s.replace(/\s+/g, " ")`. -/
def collapseWs (s : List Char) : List Char := collapseWsGo false s

/-- Model of `s.trim()`: drop whitespace from both ends. -/
def jsTrim (s : List Char) : List Char :=
  ((s.dropWhile jsWs).reverse.dropWhile jsWs).reverse

/-- The title normalisation at the top of `fitTitleTo280`:
`String(rawTitle ?? "").trim().replace(/\s+/g, " ")`. -/
def normTitle (s : List Char) : List Char := collapseWs (jsTrim s)

/-- Predicate `pat.isPrefixOf s`, written out so that every later proof can unfold it
structurally. -/
def isPref : List Char → List Char → Bool
  | [], _ => true
  | _ :: _, [] => false
  | p :: ps, c :: cs => p = c && isPref ps cs

/-- Predicate `s.includes(pat)`: `pat` occurs contiguously in `s`. -/
def containsSub (pat : List Char) : List Char → Bool
  | [] => pat.isEmpty
  | c :: cs => isPref pat (c :: cs) || containsSub pat cs

/-- Fuel-driven core of `String.prototype.replaceAll` for a non-empty
pattern: scan left to right, replace each (non-overlapping, leftmost)
occurrence of `pat` by `rep`; the replacement text is not rescanned.
The fuel only needs to be at least the length of the scanned list. -/
def raGo (pat rep : List Char) : Nat → List Char → List Char
  | _, [] => []
  | 0, s => s
  | f + 1, c :: cs =>
    if pat ≠ [] ∧ isPref pat (c :: cs) then
      rep ++ raGo pat rep f ((c :: cs).drop pat.length)
    else
      c :: raGo pat rep f cs

/-- Model of `s.replaceAll(pat, rep)` for the non-empty patterns `"{title}"` and
`"{url}"` used by the scripts (for `pat = []` this is the identity, a case
the source never exercises). -/
def replaceAll (pat rep s : List Char) : List Char := raGo pat rep s.length s

/-- The literal `"{title}"`. -/
def tpat : List Char := ['{', 't', 'i', 't', 'l', 'e', '}']

/-- The literal `"{url}"`. -/
def upat : List Char := ['{', 'u', 'r', 'l', '}']

/-- Model of `renderTemplate(phrase, { title, url })`: if the phrase does not
contain `{url}`, append `" {url}"`; then substitute `{title}` and `{url}`. -/
def renderTemplate (phrase title url : List Char) : List Char :=
  let p := if containsSub upat phrase then phrase else phrase ++ ' ' :: upat
  replaceAll upat url (replaceAll tpat title p)

/-- Modelled from the spec: the per-code-point weight of the platform's
weighted-length rule (`twitter-text` v3 configuration): code points in the
ranges U+0000–U+10FF, U+2000–U+200D, U+2010–U+201F and U+2032–U+2037 weigh
1, every other code point (CJK, full-width forms, emoji, …) weighs 2. -/
def charWeight (c : Char) : Nat :=
  if c.toNat ≤ 0x10FF ∨ (0x2000 ≤ c.toNat ∧ c.toNat ≤ 0x200D) ∨
     (0x2010 ≤ c.toNat ∧ c.toNat ≤ 0x201F) ∨
     (0x2032 ≤ c.toNat ∧ c.toNat ≤ 0x2037) then 1 else 2

/-- Modelled from the spec: the weighted length computed by
`parseTweet`.  The fixed URL weight of 23 and the emoji-sequence rule are
not modelled (they require `twitter-text`'s URL/emoji extraction, an
external library concern); every code point contributes `charWeight`. -/
def weightedLen (s : List Char) : Nat := (s.map charWeight).sum

/-- Modelled from the spec: `parseTweet(text).valid` — the text is
non-empty and its weighted length is within the budget of 280. -/
def tweetValid (s : List Char) : Bool := ¬ s.isEmpty ∧ weightedLen s ≤ 280

/-- The ellipsis `"…"` (U+2026) appended to truncated titles. -/
def ell : Char := Char.ofNat 0x2026

/-- The candidate title tested by the truncation search:
`cps.slice(0, mid).join("") + (mid < cps.length ? ell : "")`. -/
def candTitle (cps : List Char) (mid : Nat) : List Char :=
  cps.take mid ++ (if mid < cps.length then [ell] else [])

/-- The text rendered and tested for a candidate cut length `mid`. -/
def truncCand (phrase cps url : List Char) (mid : Nat) : List Char :=
  renderTemplate phrase (candTitle cps mid) url

/-- The binary-search `while` loop shared verbatim by `fitTitleTo280` and
`hardTrimWholeText`:

    while (lo <= hi) {
      const mid = Math.floor((lo + hi) / 2);
      const cand = ...(mid)...;
      if (P(cand)) { best = cand; lo = mid + 1; } else { hi = mid - 1; }
    }

`lo`/`hi` are JavaScript numbers that may go to `-1`, hence `Int`; the
fuel is structural and only needs to exceed `hi + 1 - lo`, which strictly
decreases each iteration. -/
def bsGo (P : Nat → Bool) (cand : Nat → List Char) :
    Nat → Int → Int → List Char → List Char
  | 0, _, _, best => best
  | f + 1, lo, hi, best =>
    if lo ≤ hi then
      let mid := ((lo + hi) / 2).toNat
      if P mid then bsGo P cand f (mid + 1) hi (cand mid)
      else bsGo P cand f lo (mid - 1) best
    else best

/-- The whole-text candidate of `hardTrimWholeText`. -/
def candWhole (cps : List Char) (mid : Nat) : List Char :=
  cps.take mid ++ (if mid < cps.length then [ell] else [])

/-- Model of `hardTrimWholeText(text)`: binary search for the longest prefix of the
whole text (ellipsis-terminated when proper) that `parseTweet` accepts;
`validB` stands for `parseTweet(·).valid`.  The last-resort
`String(text).slice(0, 10)` is modelled as taking 10 code points (the
source takes 10 UTF-16 units; they agree on the BMP). -/
def hardTrimWholeText (validB : List Char → Bool) (text : List Char) :
    List Char :=
  let cps := text
  let best := bsGo (fun m => validB (candWhole cps m)) (candWhole cps)
    (cps.length + 2) 0 cps.length []
  if best.isEmpty then cps.take 10 else best

/-- Model of `fitTitleTo280(phrase, rawTitle, url)` with `validB` standing for the
external `parseTweet(·).valid`.  Returns the pair
`(text, finalTitle)`. -/
def fitTitleTo280 (validB : List Char → Bool)
    (phrase rawTitle url : List Char) : List Char × List Char :=
  let title := normTitle rawTitle
  if ¬ containsSub tpat phrase then
    -- the phrase does not use {title}: validate the whole text once
    let text := renderTemplate phrase title url
    if validB text then (text, title)
    else (hardTrimWholeText validB text, title)
  else
    -- try the full title
    let text := renderTemplate phrase title url
    if validB text then (text, title)
    else
      -- binary search on code points
      let cps := title
      let best := bsGo
        (fun m => validB (renderTemplate phrase (candTitle cps m) url))
        (candTitle cps) (cps.length + 2) 0 cps.length []
      let finalTitle := best
      let text2 := renderTemplate phrase finalTitle url
      if validB text2 then (text2, finalTitle)
      else (hardTrimWholeText validB text2, finalTitle)

/-! ### Basic lemmas about `isPref`, `containsSub` and `replaceAll` -/

theorem isPref_iff (p s : List Char) : isPref p s = true ↔ p <+: s := by
  induction p generalizing s with
  | nil => simp [isPref]
  | cons a ps ih =>
    cases s with
    | nil => simp [isPref]
    | cons c cs =>
      simp only [isPref, Bool.and_eq_true, decide_eq_true_eq, ih,
        List.cons_prefix_cons]

theorem raGo_fuel (pat rep : List Char) :
    ∀ f f' s, s.length ≤ f → s.length ≤ f' →
      raGo pat rep f s = raGo pat rep f' s := by
  intro f
  induction f with
  | zero =>
    intro f' s hf _
    have : s = [] := List.length_eq_zero.mp (Nat.le_zero.mp hf)
    subst this
    cases f' <;> simp [raGo]
  | succ f ih =>
    intro f' s hf hf'
    cases s with
    | nil => cases f' <;> simp [raGo]
    | cons c cs =>
      cases f' with
      | zero => simp at hf'
      | succ f' =>
        simp only [List.length_cons] at hf hf'
        simp only [raGo]
        by_cases h : pat ≠ [] ∧ isPref pat (c :: cs)
        · simp only [if_pos h]
          have hp : 1 ≤ pat.length := by
            cases pat with
            | nil => exact absurd rfl h.1
            | cons _ _ => simp
          have hd : ((c :: cs).drop pat.length).length ≤ f := by
            simp only [List.length_drop, List.length_cons]
            omega
          have hd' : ((c :: cs).drop pat.length).length ≤ f' := by
            simp only [List.length_drop, List.length_cons]
            omega
          rw [ih f' _ hd hd']
        · simp only [if_neg h]
          rw [ih f' _ (by omega) (by omega)]

theorem replaceAll_nil (pat rep : List Char) : replaceAll pat rep [] = [] :=
  rfl

theorem replaceAll_cons_pos (pat rep : List Char) (c : Char) (cs : List Char)
    (h : pat ≠ [] ∧ isPref pat (c :: cs)) :
    replaceAll pat rep (c :: cs) =
      rep ++ replaceAll pat rep ((c :: cs).drop pat.length) := by
  have hp : 1 ≤ pat.length := by
    cases pat with
    | nil => exact absurd rfl h.1
    | cons _ _ => simp
  show raGo pat rep (cs.length + 1) (c :: cs) = _
  rw [show raGo pat rep (cs.length + 1) (c :: cs) =
      rep ++ raGo pat rep cs.length ((c :: cs).drop pat.length) by
    simp only [raGo, if_pos h]]
  congr 1
  exact raGo_fuel pat rep cs.length _ _
    (by simp only [List.length_drop, List.length_cons]; omega) le_rfl

theorem replaceAll_cons_neg (pat rep : List Char) (c : Char) (cs : List Char)
    (h : ¬ (pat ≠ [] ∧ isPref pat (c :: cs))) :
    replaceAll pat rep (c :: cs) = c :: replaceAll pat rep cs := by
  show raGo pat rep (cs.length + 1) (c :: cs) = _
  rw [show raGo pat rep (cs.length + 1) (c :: cs) =
      c :: raGo pat rep cs.length cs by simp only [raGo, if_neg h]]
  rfl

theorem prefix_of_prefix_append {p a b : List Char} (h : p <+: a ++ b)
    (hlen : p.length ≤ a.length) : p <+: a := by
  have h1 : p = (a ++ b).take p.length := List.prefix_iff_eq_take.mp h
  have h2 : (a ++ b).take p.length = a.take p.length := by
    rw [List.take_append_eq_append_take, Nat.sub_eq_zero_of_le hlen,
      List.take_zero, List.append_nil]
  rw [h1, h2]
  exact List.take_prefix _ _

theorem suffix_cons_of_suffix {s cs : List Char} {c : Char} (h : s <:+ cs) :
    s <:+ c :: cs := by
  obtain ⟨t, ht⟩ := h
  exact ⟨c :: t, by simp [ht]⟩

/-- Lemma: `replaceAll` distributes over an append as long as no occurrence of the
pattern can straddle the boundary: no non-empty suffix of `x` shorter than
the pattern begins an occurrence that continues into `y`. -/
theorem replaceAll_append (pat rep : List Char) (hpat : pat ≠ []) :
    ∀ n x y, x.length ≤ n →
      (∀ s : List Char, s <:+ x → s ≠ [] → s.length < pat.length →
        ¬ (pat <+: (s ++ y))) →
      replaceAll pat rep (x ++ y) =
        replaceAll pat rep x ++ replaceAll pat rep y := by
  intro n
  induction n with
  | zero =>
    intro x y hx _
    have : x = [] := List.length_eq_zero.mp (Nat.le_zero.mp hx)
    subst this
    simp [replaceAll_nil]
  | succ n ih =>
    intro x y hx hspan
    cases x with
    | nil => simp [replaceAll_nil]
    | cons c cs =>
      simp only [List.length_cons] at hx
      rw [List.cons_append]
      by_cases hm : isPref pat (c :: (cs ++ y)) = true
      · by_cases hlen : pat.length ≤ cs.length + 1
        · -- the occurrence lies inside `x`
          have hmx : isPref pat (c :: cs) = true := by
            rw [isPref_iff] at hm ⊢
            exact prefix_of_prefix_append
              (by rwa [← List.cons_append] at hm) (by simpa using hlen)
          rw [replaceAll_cons_pos pat rep _ _ ⟨hpat, hm⟩,
            replaceAll_cons_pos pat rep _ _ ⟨hpat, hmx⟩]
          have hdrop : (c :: (cs ++ y)).drop pat.length =
              (c :: cs).drop pat.length ++ y := by
            rw [← List.cons_append, List.drop_append_eq_append_drop,
              Nat.sub_eq_zero_of_le (by simpa using hlen), List.drop_zero]
          rw [hdrop]
          have hp1 : 1 ≤ pat.length := by
            cases pat with
            | nil => exact absurd rfl hpat
            | cons _ _ => simp
          rw [ih ((c :: cs).drop pat.length) y
            (by simp only [List.length_drop, List.length_cons]; omega)
            (fun s hs hne hslen =>
              hspan s (hs.trans (List.drop_suffix _ _)) hne hslen)]
          simp [List.append_assoc]
        · -- the pattern is longer than all of `x`: a straddling occurrence
          exact absurd (by rw [← List.cons_append] at hm; exact (isPref_iff _ _).mp hm)
            (hspan (c :: cs) (List.suffix_refl _) (by simp)
              (by simp only [List.length_cons]; omega))
      · have hmx : ¬ isPref pat (c :: cs) = true := by
          intro hc
          apply hm
          rw [isPref_iff] at hc ⊢
          rw [← List.cons_append]
          exact hc.trans (List.prefix_append _ _)
        rw [replaceAll_cons_neg pat rep _ _ (by simp [hm]),
          replaceAll_cons_neg pat rep _ _ (by simp [hmx])]
        rw [ih cs y (by omega)
          (fun s hs hne hslen => hspan s (suffix_cons_of_suffix hs) hne hslen)]
        simp

/-! ### Decomposing a scanned string into the segments between matches

`splitT pat s` returns the (non-empty) list of maximal segments of `s`
between the occurrences of `pat` that the left-to-right scan of
`replaceAll` finds, so that `replaceAll pat rep s = glue rep (splitT pat s)`.
Crucially, `splitT` does not depend on the replacement text. -/

def splitGo (pat : List Char) : Nat → List Char → List (List Char)
  | _, [] => [[]]
  | 0, s => [s]
  | f + 1, c :: cs =>
    if pat ≠ [] ∧ isPref pat (c :: cs) then
      [] :: splitGo pat f ((c :: cs).drop pat.length)
    else
      match splitGo pat f cs with
      | [] => [[c]]
      | g :: gs => (c :: g) :: gs

def splitT (pat s : List Char) : List (List Char) := splitGo pat s.length s

/-- Interleave the segments `ss` with the separator `t`
(`List.intercalate`, written out for easy unfolding). -/
def glue (t : List Char) : List (List Char) → List Char
  | [] => []
  | [s] => s
  | s :: s' :: ss => s ++ t ++ glue t (s' :: ss)

theorem splitGo_fuel (pat : List Char) :
    ∀ f f' s, s.length ≤ f → s.length ≤ f' →
      splitGo pat f s = splitGo pat f' s := by
  intro f
  induction f with
  | zero =>
    intro f' s hf _
    have : s = [] := List.length_eq_zero.mp (Nat.le_zero.mp hf)
    subst this
    cases f' <;> simp [splitGo]
  | succ f ih =>
    intro f' s hf hf'
    cases s with
    | nil => cases f' <;> simp [splitGo]
    | cons c cs =>
      cases f' with
      | zero => simp at hf'
      | succ f' =>
        simp only [List.length_cons] at hf hf'
        simp only [splitGo]
        by_cases h : pat ≠ [] ∧ isPref pat (c :: cs)
        · simp only [if_pos h]
          have hp : 1 ≤ pat.length := by
            cases pat with
            | nil => exact absurd rfl h.1
            | cons _ _ => simp
          rw [ih f' _ (by simp only [List.length_drop, List.length_cons]; omega)
            (by simp only [List.length_drop, List.length_cons]; omega)]
        · simp only [if_neg h]
          rw [ih f' _ (by omega) (by omega)]

theorem splitT_nil (pat : List Char) : splitT pat [] = [[]] := rfl

theorem splitT_cons_pos (pat : List Char) (c : Char) (cs : List Char)
    (h : pat ≠ [] ∧ isPref pat (c :: cs)) :
    splitT pat (c :: cs) = [] :: splitT pat ((c :: cs).drop pat.length) := by
  have hp : 1 ≤ pat.length := by
    cases pat with
    | nil => exact absurd rfl h.1
    | cons _ _ => simp
  show splitGo pat (cs.length + 1) (c :: cs) = _
  rw [show splitGo pat (cs.length + 1) (c :: cs) =
      [] :: splitGo pat cs.length ((c :: cs).drop pat.length) by
    simp only [splitGo, if_pos h]]
  congr 1
  exact splitGo_fuel pat cs.length _ _
    (by simp only [List.length_drop, List.length_cons]; omega) le_rfl

theorem splitT_cons_neg (pat : List Char) (c : Char) (cs : List Char)
    (h : ¬ (pat ≠ [] ∧ isPref pat (c :: cs))) :
    splitT pat (c :: cs) =
      match splitT pat cs with
      | [] => [[c]]
      | g :: gs => (c :: g) :: gs := by
  show splitGo pat (cs.length + 1) (c :: cs) = _
  simp only [splitGo, if_neg h]
  rfl

theorem splitT_ne_nil (pat s : List Char) : splitT pat s ≠ [] := by
  cases s with
  | nil => simp [splitT_nil]
  | cons c cs =>
    by_cases h : pat ≠ [] ∧ isPref pat (c :: cs)
    · rw [splitT_cons_pos pat c cs h]
      simp
    · rw [splitT_cons_neg pat c cs h]
      cases splitT pat cs <;> simp

/-- Lemma: `replaceAll` is the interleaving of the untouched segments with the
replacement text. -/
theorem replaceAll_eq_glue (pat rep : List Char) :
    ∀ n s, s.length ≤ n →
      replaceAll pat rep s = glue rep (splitT pat s) := by
  intro n
  induction n with
  | zero =>
    intro s hs
    have : s = [] := List.length_eq_zero.mp (Nat.le_zero.mp hs)
    subst this
    simp [replaceAll_nil, splitT_nil, glue]
  | succ n ih =>
    intro s hs
    cases s with
    | nil => simp [replaceAll_nil, splitT_nil, glue]
    | cons c cs =>
      simp only [List.length_cons] at hs
      by_cases h : pat ≠ [] ∧ isPref pat (c :: cs)
      · have hp : 1 ≤ pat.length := by
          cases pat with
          | nil => exact absurd rfl h.1
          | cons _ _ => simp
        rw [replaceAll_cons_pos pat rep c cs h, splitT_cons_pos pat c cs h]
        have hd : ((c :: cs).drop pat.length).length ≤ n := by
          simp only [List.length_drop, List.length_cons]
          omega
        rw [ih _ hd]
        rcases hg : splitT pat ((c :: cs).drop pat.length) with _ | ⟨g, gs⟩
        · exact absurd hg (splitT_ne_nil pat _)
        · simp [glue]
      · rw [replaceAll_cons_neg pat rep c cs h, splitT_cons_neg pat c cs h]
        rw [ih cs (by omega)]
        rcases hg : splitT pat cs with _ | ⟨g, gs⟩
        · exact absurd hg (splitT_ne_nil pat _)
        · cases gs with
          | nil => simp [glue]
          | cons g' gs' => simp [glue]

/-- If some character of the pattern never occurs in `t`, the scan leaves
`t` unchanged. -/
theorem replaceAll_id_of_not_mem (pat rep : List Char) (c₀ : Char)
    (hc : c₀ ∈ pat) : ∀ t, c₀ ∉ t → replaceAll pat rep t = t := by
  intro t
  induction t with
  | nil => intro _; exact replaceAll_nil pat rep
  | cons c cs ih =>
    intro ht
    have hm : ¬ (pat ≠ [] ∧ isPref pat (c :: cs)) := by
      rintro ⟨-, hp⟩
      exact ht (((isPref_iff _ _).mp hp).subset hc)
    rw [replaceAll_cons_neg pat rep c cs hm,
      ih (fun hmem => ht (List.mem_cons_of_mem c hmem))]

theorem prefix_split {p q z : List Char} (h : p <+: q ++ z)
    (hlen : q.length ≤ p.length) : q <+: p := by
  obtain ⟨t, ht⟩ := h
  have h1 : (p ++ t).take q.length = p.take q.length := by
    rw [List.take_append_eq_append_take, Nat.sub_eq_zero_of_le hlen,
      List.take_zero, List.append_nil]
  have h2 : (q ++ z).take q.length = q := List.take_left q z
  have : p.take q.length = q := by rw [← h1, ht, h2]
  rw [← this]
  exact List.take_prefix _ _

theorem getLast?_of_suffix {q x : List Char} (h : q <:+ x) (hq : q ≠ []) :
    x.getLast? = q.getLast? := by
  obtain ⟨t, ht⟩ := h
  rw [← ht]
  exact List.getLast?_append_of_ne_nil t hq

/-- First boundary condition: no occurrence of `"{url}"` can start in a
segment and continue into a separator of the shape
`…ell-terminated, brace-free…` followed by anything. -/
theorem noSpan_left {t : List Char} (hbr : '}' ∉ t)
    (hlast : t.getLast? = some ell) :
    ∀ (rest q : List Char), q ≠ [] → q.length < upat.length →
      ¬ upat <+: q ++ (t ++ rest) := by
  intro rest q hq hql hpre
  have hqp : q <+: upat := prefix_split hpre (Nat.le_of_lt hql)
  have hqt : q = upat.take q.length := by
    obtain ⟨w, hw⟩ := hqp
    rw [← hw, List.take_append_eq_append_take, Nat.sub_self, List.take_zero,
      List.append_nil, List.take_length]
  set r : List Char := upat.drop q.length with hr
  have hsplit : upat = q ++ r := by rw [hqt, hr, List.take_append_drop]
  have hrpre : r <+: t ++ rest := by
    rw [hsplit] at hpre
    exact (List.prefix_append_right_inj q).mp hpre
  have hq1 : 1 ≤ q.length := by
    cases q with
    | nil => exact absurd rfl hq
    | cons _ _ => simp
  have hul : upat.length = 5 := by decide
  rw [hul] at hql
  by_cases hcmp : r.length ≤ t.length
  · -- the rest of the pattern sits inside `t`, so `}` would be in `t`
    have hrt : r <+: t := prefix_of_prefix_append hrpre hcmp
    have hbrr : ('}' : Char) ∈ r := by
      have hk : q.length = 1 ∨ q.length = 2 ∨ q.length = 3 ∨ q.length = 4 := by
        omega
      rcases hk with hk | hk | hk | hk <;> rw [hr, hk] <;> decide
    exact hbr (hrt.subset hbrr)
  · -- `t` is a prefix of the rest of the pattern, so `ell` would be in it
    have htr : t <+: r := prefix_split hrpre (by omega)
    have hellt : ell ∈ t := List.mem_of_mem_getLast? hlast
    have : ell ∈ upat := (List.drop_subset _ _) (htr.subset hellt)
    exact absurd this (by decide)

/-- Second boundary condition: no occurrence of `"{url}"` can start inside
an ell-terminated separator and continue past it. -/
theorem noSpan_right {t : List Char} (hlast : t.getLast? = some ell) :
    ∀ (rest q : List Char), q <:+ t → q ≠ [] → q.length < upat.length →
      ¬ upat <+: q ++ rest := by
  intro rest q hqs hq hql hpre
  have hqp : q <+: upat := prefix_split hpre (Nat.le_of_lt hql)
  have : q.getLast? = some ell := by
    rw [← getLast?_of_suffix hqs hq, hlast]
  have : ell ∈ upat := hqp.subset (List.mem_of_mem_getLast? this)
  exact absurd this (by decide)

/-- The `{url}` substitution pass commutes with gluing segments by an
ell-terminated, brace-free separator: the separator passes through
untouched and each segment is rewritten independently. -/
theorem glue_replace (u t : List Char) (hbr : '}' ∉ t)
    (hlast : t.getLast? = some ell) :
    ∀ ss : List (List Char),
      replaceAll upat u (glue t ss) = glue t (ss.map (replaceAll upat u)) := by
  intro ss
  induction ss with
  | nil => simp [glue, replaceAll_nil]
  | cons s ss ih =>
    cases ss with
    | nil => simp [glue]
    | cons s' rest =>
      show replaceAll upat u (s ++ t ++ glue t (s' :: rest)) = _
      rw [List.append_assoc]
      rw [replaceAll_append upat u (by decide) s.length s (t ++ glue t (s' :: rest))
        le_rfl (fun q hqs hq hql => noSpan_left hbr hlast _ q hq hql)]
      rw [replaceAll_append upat u (by decide) t.length t (glue t (s' :: rest))
        le_rfl (fun q hqs hq hql => noSpan_right hlast _ q hqs hq hql)]
      rw [replaceAll_id_of_not_mem upat u '}' (by decide) t hbr, ih]
      show _ = glue t (replaceAll upat u s :: replaceAll upat u s' ::
        rest.map (replaceAll upat u))
      rw [show glue t (replaceAll upat u s :: replaceAll upat u s' ::
          rest.map (replaceAll upat u)) = replaceAll upat u s ++ t ++
          glue t (replaceAll upat u s' :: rest.map (replaceAll upat u)) from rfl]
      simp [List.append_assoc]

/-! ### Weighted-length arithmetic -/

theorem weightedLen_append (x y : List Char) :
    weightedLen (x ++ y) = weightedLen x + weightedLen y := by
  simp [weightedLen]

theorem weightedLen_take_le (l : List Char) (k : ℕ) :
    weightedLen (l.take k) ≤ weightedLen l := by
  conv_rhs => rw [← List.take_append_drop k l]
  rw [weightedLen_append]
  omega

theorem weightedLen_take_mono (l : List Char) {k L : ℕ} (h : k ≤ L) :
    weightedLen (l.take k) ≤ weightedLen (l.take L) := by
  have : l.take k = (l.take L).take k := by
    rw [List.take_take, Nat.min_eq_left h]
  rw [this]
  exact weightedLen_take_le _ _

theorem glue_weight_mono (t₁ t₂ : List Char)
    (h : weightedLen t₁ ≤ weightedLen t₂) :
    ∀ ss : List (List Char), weightedLen (glue t₁ ss) ≤ weightedLen (glue t₂ ss) := by
  intro ss
  induction ss with
  | nil => simp [glue]
  | cons s ss ih =>
    cases ss with
    | nil => simp [glue]
    | cons s' rest =>
      show weightedLen (s ++ t₁ ++ glue t₁ (s' :: rest)) ≤
        weightedLen (s ++ t₂ ++ glue t₂ (s' :: rest))
      rw [weightedLen_append, weightedLen_append, weightedLen_append,
        weightedLen_append]
      omega

theorem tweetValid_iff (s : List Char) :
    tweetValid s = true ↔ s ≠ [] ∧ weightedLen s ≤ 280 := by
  simp [tweetValid, List.isEmpty_iff]

/-- Claim C2, amended.  The truncation predicate of the fitting engine
is monotone over the proper prefixes of a title containing no `}`: if
rendering the ellipsis-terminated prefix of length `L < len(title)` is
valid under the (spec-modelled) weighted-length rule, so is every shorter
ellipsis-terminated prefix.  (At `L = len(title)` the candidate carries no
ellipsis and the property fails, see the counterexample; it also fails for
titles containing `}`, which can complete a `{url}` placeholder.) -/
theorem claim_C2_theorem (phrase url t : List Char) (hbr : '}' ∉ t)
    (L k : ℕ) (hk : k ≤ L) (hL : L < t.length)
    (hv : tweetValid (truncCand phrase t url L) = true) :
    tweetValid (truncCand phrase t url k) = true := by
  have hcand : ∀ m, m < t.length → candTitle t m = t.take m ++ [ell] := by
    intro m hm
    simp [candTitle, hm]
  have hkL : k < t.length := lt_of_le_of_lt hk hL
  -- hypotheses of glue_replace for an ellipsis-terminated prefix
  have hsep : ∀ m, ('}' : Char) ∉ t.take m ++ [ell] := by
    intro m hmem
    rcases List.mem_append.mp hmem with hmem | hmem
    · exact hbr (List.take_subset m t hmem)
    · simp at hmem
      exact absurd hmem (by decide)
  have hlast : ∀ m : ℕ, (t.take m ++ [ell]).getLast? = some ell := by
    intro m
    exact List.getLast?_concat _
  -- unfold the renderer into glued segments
  have hrender : ∀ m, m < t.length → truncCand phrase t url m =
      glue (t.take m ++ [ell])
        ((splitT tpat (if containsSub upat phrase then phrase
          else phrase ++ ' ' :: upat)).map (replaceAll upat url)) := by
    intro m hm
    show renderTemplate phrase (candTitle t m) url = _
    rw [hcand m hm]
    show replaceAll upat url (replaceAll tpat (t.take m ++ [ell]) _) = _
    rw [replaceAll_eq_glue tpat (t.take m ++ [ell]) _ _ le_rfl,
      glue_replace url (t.take m ++ [ell]) (hsep m) (hlast m)]
  rw [hrender L hL] at hv
  rw [hrender k hkL]
  rcases hM : (splitT tpat (if containsSub upat phrase then phrase
      else phrase ++ ' ' :: upat)).map (replaceAll upat url) with _ | ⟨m₀, M⟩
  · exact absurd (List.map_eq_nil_iff.mp hM) (splitT_ne_nil tpat _)
  · rw [hM] at hv
    cases M with
    | nil => simpa [glue] using hv
    | cons m₁ M =>
      rw [tweetValid_iff] at hv ⊢
      constructor
      · show m₀ ++ (t.take k ++ [ell]) ++ glue _ (m₁ :: M) ≠ []
        simp
      · have hw : weightedLen (t.take k ++ [ell]) ≤
            weightedLen (t.take L ++ [ell]) := by
          rw [weightedLen_append, weightedLen_append]
          have := weightedLen_take_mono t hk
          omega
        calc weightedLen (glue (t.take k ++ [ell]) (m₀ :: m₁ :: M))
            ≤ weightedLen (glue (t.take L ++ [ell]) (m₀ :: m₁ :: M)) :=
              glue_weight_mono _ _ hw _
          _ ≤ 280 := hv.2

/-- The phrase `"{title}"` used by the C1/C2 counterexamples. -/
def cexPhrase : List Char := tpat

/-- The URL `"u"` used by the C1/C2 counterexamples. -/
def cexUrl : List Char := ['u']

/-- A 278-character ASCII title. -/
def cexTitleC2 : List Char := List.replicate 278 'a'

/-- Claim C2, counterexample.  With the phrase `"{title}"`, the URL
`"u"` and a title of 278 ASCII characters, the candidate at the full length
`L = 278` (rendered without an ellipsis, weighted length 280) is valid,
while the candidate at length `277` (the two-weight ellipsis replaces a
one-weight character, weighted length 281) is not: the truncation predicate
is not monotone at the full-title boundary, refuting the claim as stated
for `L = len(title)`, `k = 277`. -/
theorem claim_C2_counterexample :
    tweetValid (truncCand cexPhrase cexTitleC2 cexUrl 278) = true ∧
    tweetValid (truncCand cexPhrase cexTitleC2 cexUrl 277) = false ∧
    277 < 278 := by
  refine ⟨by decide, by decide, by decide⟩

/-- Claim C2, witness.  A concrete run of the amended monotonicity
theorem: title `"hello"`, valid at the proper prefix length 4, hence valid
at length 2. -/
theorem claim_C2_witness :
    tweetValid (truncCand ['h', 'i', ' '] ['h', 'e', 'l', 'l', 'o'] ['u'] 2)
      = true :=
  claim_C2_theorem ['h', 'i', ' '] ['u'] ['h', 'e', 'l', 'l', 'o']
    (by decide) 4 2 (by decide) (by decide) (by decide)

/-! ### The binary-search loop -/

/-- Weak soundness of the loop, with no assumption on the predicate: the
result is either the initial `best` or a candidate the predicate
accepted. -/
theorem bsGo_weak (P : Nat → Bool) (cand : Nat → List Char) :
    ∀ (f : ℕ) (lo hi : Int) (best : List Char),
      bsGo P cand f lo hi best = best ∨
        ∃ m, P m = true ∧ bsGo P cand f lo hi best = cand m := by
  intro f
  induction f with
  | zero => intro lo hi best; left; rfl
  | succ f ih =>
    intro lo hi best
    by_cases hlh : lo ≤ hi
    · simp only [bsGo, if_pos hlh]
      by_cases hP : P ((lo + hi) / 2).toNat = true
      · simp only [if_pos hP]
        rcases ih (((lo + hi) / 2).toNat + 1) hi (cand ((lo + hi) / 2).toNat)
          with h | ⟨m, hm, h⟩
        · exact Or.inr ⟨_, hP, h⟩
        · exact Or.inr ⟨m, hm, h⟩
      · simp only [if_neg hP]
        exact ih lo _ best
    · simp only [bsGo, if_neg hlh]
      left
      trivial

/-- Full correctness of the loop for a predicate that is downward closed on
`[0, len]`: starting from `lo = 0`, `hi = len`, `best = bInit`, it returns
the candidate of the greatest accepted index, or `bInit` when no index in
`[0, len]` is accepted. -/
theorem bsGo_max (P : Nat → Bool) (cand : Nat → List Char) (len : ℕ)
    (bInit : List Char)
    (hmono : ∀ m, m ≤ len → ∀ k, k ≤ m → P m = true → P k = true) :
    ∀ (f : ℕ) (lo hi : Int) (best : List Char),
      0 ≤ lo → hi ≤ (len : Int) → (hi + 1 - lo).toNat < f →
      (lo = 0 ∧ best = bInit ∨
        (0 < lo ∧ P (lo - 1).toNat = true ∧ best = cand (lo - 1).toNat)) →
      (∀ m : ℕ, hi < (m : Int) → m ≤ len → P m = false) →
      ((∃ L, P L = true ∧ bsGo P cand f lo hi best = cand L ∧
          ∀ m, m ≤ len → P m = true → m ≤ L) ∨
        ((∀ m, m ≤ len → P m = false) ∧ bsGo P cand f lo hi best = bInit)) := by
  intro f
  induction f with
  | zero =>
    intro lo hi best _ _ hfuel _ _
    omega
  | succ f ih =>
    intro lo hi best hlo hhilen hfuel hbest hhi
    by_cases hlh : lo ≤ hi
    · simp only [bsGo, if_pos hlh]
      have hmid0 : 0 ≤ (lo + hi) / 2 := Int.ediv_nonneg (by omega) (by omega)
      have hmidlo : lo ≤ (lo + hi) / 2 := by
        have h1 : (lo + lo) / 2 ≤ (lo + hi) / 2 :=
          Int.ediv_le_ediv (by omega) (by omega)
        have h2 : (lo + lo) / 2 = lo := by
          rw [show lo + lo = 2 * lo by ring]
          exact Int.mul_ediv_cancel_left lo (by omega)
        omega
      have hmidhi : (lo + hi) / 2 ≤ hi := by
        have h1 : (lo + hi) / 2 ≤ (hi + hi) / 2 :=
          Int.ediv_le_ediv (by omega) (by omega)
        have h2 : (hi + hi) / 2 = hi := by
          rw [show hi + hi = 2 * hi by ring]
          exact Int.mul_ediv_cancel_left hi (by omega)
        omega
      set mid : ℕ := ((lo + hi) / 2).toNat with hmiddef
      have hmidcast : (mid : Int) = (lo + hi) / 2 := Int.toNat_of_nonneg hmid0
      have hmidlen : mid ≤ len := by omega
      by_cases hP : P mid = true
      · simp only [if_pos hP]
        rcases ih ((mid : Int) + 1) hi (cand mid) (by omega) hhilen (by omega)
          (Or.inr ⟨by omega, by
            have : ((mid : Int) + 1 - 1).toNat = mid := by omega
            rw [this]
            exact ⟨hP, rfl⟩⟩) hhi with h | h
        · exact Or.inl h
        · exact Or.inr h
      · simp only [if_neg hP]
        have hhi' : ∀ m : ℕ, (mid : Int) - 1 < (m : Int) → m ≤ len →
            P m = false := by
          intro m hm hmlen
          by_cases hcase : hi < (m : Int)
          · exact hhi m hcase hmlen
          · have hmm : mid ≤ m := by omega
            cases hPm : P m with
            | false => rfl
            | true => exact absurd (hmono m hmlen mid hmm hPm) hP
        rcases ih lo ((mid : Int) - 1) best hlo (by omega) (by omega) hbest hhi'
          with h | h
        · exact Or.inl h
        · exact Or.inr h
    · simp only [bsGo, if_neg hlh]
      rcases hbest with ⟨hlo0, hb⟩ | ⟨hlopos, hPlo, hb⟩
      · right
        refine ⟨fun m hmlen => hhi m (by omega) hmlen, hb⟩
      · left
        refine ⟨(lo - 1).toNat, hPlo, hb ▸ rfl, ?_⟩
        intro m hmlen hPm
        by_contra hcon
        have : hi < (m : Int) := by omega
        rw [hhi m this hmlen] at hPm
        exact Bool.false_ne_true hPm

/-- In the search branch (`{title}` present, full title invalid), the
returned `finalTitle` is exactly the result of the binary-search loop. -/
theorem fitTitleTo280_search_eq (validB : List Char → Bool)
    (phrase rawTitle url : List Char)
    (hT : containsSub tpat phrase = true)
    (hfull : validB (renderTemplate phrase (normTitle rawTitle) url) = false) :
    (fitTitleTo280 validB phrase rawTitle url).2 =
      bsGo (fun m => validB (truncCand phrase (normTitle rawTitle) url m))
        (candTitle (normTitle rawTitle)) ((normTitle rawTitle).length + 2)
        0 ((normTitle rawTitle).length : Int) [] := by
  unfold fitTitleTo280
  rw [if_neg (by simp [hT])]
  rw [if_neg (by simp [hfull])]
  rw [apply_ite Prod.snd]
  simp only [ite_self]
  rfl

/-- Claim C1, amended.  For a phrase containing `{title}` whose full
(normalised) title renders invalid, *provided the truncation predicate is
downward closed on the index range* `[0, len]` (which the monotonicity of
C2 gives for brace-free titles but which can fail in general, see the
counterexample), the binary search of `fitTitleTo280` returns the
candidate of the largest valid cut length, whenever some cut length is
valid. -/
theorem claim_C1_theorem (validB : List Char → Bool)
    (phrase rawTitle url : List Char)
    (hT : containsSub tpat phrase = true)
    (hfull : validB (renderTemplate phrase (normTitle rawTitle) url) = false)
    (hmono : ∀ m, m ≤ (normTitle rawTitle).length → ∀ k, k ≤ m →
      validB (truncCand phrase (normTitle rawTitle) url m) = true →
      validB (truncCand phrase (normTitle rawTitle) url k) = true)
    (hex : ∃ L, L ≤ (normTitle rawTitle).length ∧
      validB (truncCand phrase (normTitle rawTitle) url L) = true) :
    ∃ L, validB (truncCand phrase (normTitle rawTitle) url L) = true ∧
      (fitTitleTo280 validB phrase rawTitle url).2 =
        candTitle (normTitle rawTitle) L ∧
      ∀ m, m ≤ (normTitle rawTitle).length →
        validB (truncCand phrase (normTitle rawTitle) url m) = true →
        m ≤ L := by
  rw [fitTitleTo280_search_eq validB phrase rawTitle url hT hfull]
  rcases bsGo_max (fun m => validB (truncCand phrase (normTitle rawTitle) url m))
      (candTitle (normTitle rawTitle)) (normTitle rawTitle).length [] hmono
      ((normTitle rawTitle).length + 2) 0 ((normTitle rawTitle).length : Int) []
      (by omega) (by omega) (by omega) (Or.inl ⟨rfl, rfl⟩)
      (fun m hm hmlen => by omega) with ⟨L, hPL, hres, hmax⟩ | ⟨hnone, _⟩
  · exact ⟨L, hPL, hres, hmax⟩
  · obtain ⟨L, hL, hPL⟩ := hex
    rw [hnone L hL] at hPL
    exact absurd hPL (by simp)

/-- A toy validity predicate (accept texts of at most 7 code points), used
to witness the parametric C1 theorem on a small concrete instance. -/
def toyValid : List Char → Bool := fun s => s.length ≤ 7

/-- The eight-letter title of the C1 witness. -/
def witTitleC1 : List Char := ['a', 'b', 'c', 'd', 'e', 'f', 'g', 'h']

/-- Claim C1, witness.  Running the amended theorem on the phrase
`"{title}"`, the title `"abcdefgh"` and the URL `"u"` with the toy
length-7 predicate: the full render (10 code points) is invalid, the
predicate is monotone, and the search returns the candidate of the largest
valid cut length. -/
theorem claim_C1_witness :
    ∃ L, toyValid (truncCand tpat (normTitle witTitleC1) ['u'] L) = true ∧
      (fitTitleTo280 toyValid tpat witTitleC1 ['u']).2 =
        candTitle (normTitle witTitleC1) L ∧
      ∀ m, m ≤ (normTitle witTitleC1).length →
        toyValid (truncCand tpat (normTitle witTitleC1) ['u'] m) = true →
        m ≤ L :=
  claim_C1_theorem toyValid tpat witTitleC1 ['u'] (by decide) (by decide)
    (by decide) (by decide)

/-- The title of the C1 counterexample: 275 `a`s, then the five characters
`{url}`, then 10 `z`s (290 code points, no whitespace). -/
def cexTitleC1 : List Char :=
  List.replicate 275 'a' ++ upat ++ List.replicate 10 'z'

/-- Claim C1, counterexample.  With the phrase `"{title}"`, the URL
`"u"` and `cexTitleC1`, the full title renders invalid and the binary
search runs, but the `{url}` placeholder inside the title makes the
truncation predicate non-monotone (cut lengths 277–279 render invalid while
280 renders valid, because at 280 the completed `{url}` is substituted by
the one-character URL).  The search returns the candidate of cut length
276, which is *not* the candidate of the largest valid cut length: no `L`
that is maximal valid equals the returned `finalTitle`.  This refutes the
claim as stated. -/
theorem claim_C1_counterexample :
    tweetValid (renderTemplate cexPhrase (normTitle cexTitleC1) cexUrl)
      = false ∧
    ¬ ∃ L, tweetValid (truncCand cexPhrase cexTitleC1 cexUrl L) = true ∧
      (∀ m, m ≤ 290 → tweetValid (truncCand cexPhrase cexTitleC1 cexUrl m)
        = true → m ≤ L) ∧
      (fitTitleTo280 tweetValid cexPhrase cexTitleC1 cexUrl).2 =
        candTitle cexTitleC1 L := by
  refine ⟨by decide, ?_⟩
  rintro ⟨L, hPL, hmax, heq⟩
  have h280 : tweetValid (truncCand cexPhrase cexTitleC1 cexUrl 280) = true := by
    decide
  have hL : 280 ≤ L := hmax 280 (by omega) h280
  have hfit : (fitTitleTo280 tweetValid cexPhrase cexTitleC1 cexUrl).2 =
      candTitle cexTitleC1 276 := by decide
  rw [hfit] at heq
  have hlen1 : (candTitle cexTitleC1 276).length = 277 := by decide
  have hlen290 : cexTitleC1.length = 290 := by decide
  have hlen2 : 281 ≤ (candTitle cexTitleC1 L).length := by
    simp only [candTitle, List.length_append, List.length_take, hlen290]
    by_cases hcase : L < 290 <;> simp [hcase] <;> omega
  rw [heq] at hlen1
  omega

/-! ### Claim C6: the fitting engine never hands invalid text onward -/

/-- Lemma: `replaceAll` can only erase a string if the string was empty, or the
replacement is empty and every character belonged to an occurrence of the
pattern. -/
theorem replaceAll_eq_nil (pat rep : List Char) :
    ∀ n s, s.length ≤ n → replaceAll pat rep s = [] →
      s = [] ∨ (rep = [] ∧ ∀ c ∈ s, c ∈ pat) := by
  intro n
  induction n with
  | zero =>
    intro s hs _
    exact Or.inl (List.length_eq_zero.mp (Nat.le_zero.mp hs))
  | succ n ih =>
    intro s hs hnil
    cases s with
    | nil => exact Or.inl rfl
    | cons c cs =>
      simp only [List.length_cons] at hs
      by_cases h : pat ≠ [] ∧ isPref pat (c :: cs)
      · rw [replaceAll_cons_pos pat rep c cs h] at hnil
        have hp : 1 ≤ pat.length := by
          cases pat with
          | nil => exact absurd rfl h.1
          | cons _ _ => simp
        rcases List.append_eq_nil.mp hnil with ⟨hrep, hrest⟩
        rcases ih _ (by simp only [List.length_drop, List.length_cons]; omega)
          hrest with hd | ⟨-, hall⟩
        · -- the dropped tail is empty: every character matched the pattern
          right
          refine ⟨hrep, ?_⟩
          obtain ⟨w, hw⟩ := (isPref_iff _ _).mp h.2
          intro x hx
          rw [← hw] at hx hd
          rcases List.mem_append.mp hx with hx | hx
          · exact hx
          · rw [List.drop_append_eq_append_drop, List.drop_length,
              Nat.sub_self, List.drop_zero, List.nil_append] at hd
            rw [hd] at hx
            exact absurd hx (List.not_mem_nil x)
        · right
          refine ⟨hrep, ?_⟩
          obtain ⟨w, hw⟩ := (isPref_iff _ _).mp h.2
          intro x hx
          rw [← hw] at hx
          rcases List.mem_append.mp hx with hx | hx
          · exact hx
          · apply hall
            rw [← hw, List.drop_append_eq_append_drop, List.drop_length,
              Nat.sub_self, List.drop_zero, List.nil_append]
            exact hx
      · rw [replaceAll_cons_neg pat rep c cs h] at hnil
        exact absurd hnil (List.cons_ne_nil _ _)

theorem mem_of_containsSub {pat s : List Char}
    (h : containsSub pat s = true) : ∀ c ∈ pat, c ∈ s := by
  induction s with
  | nil =>
    intro c hc
    simp only [containsSub, List.isEmpty_iff] at h
    rw [h] at hc
    exact absurd hc (List.not_mem_nil c)
  | cons x xs ih =>
    intro c hc
    simp only [containsSub, Bool.or_eq_true] at h
    rcases h with h | h
    · exact ((isPref_iff _ _).mp h).subset hc
    · exact List.mem_cons_of_mem x (ih h c hc)

/-- With a non-empty URL the renderer never produces the empty string. -/
theorem renderTemplate_ne_nil (phrase t url : List Char) (hurl : url ≠ []) :
    renderTemplate phrase t url ≠ [] := by
  intro hnil
  set p : List Char := if containsSub upat phrase then phrase
    else phrase ++ ' ' :: upat with hp
  have hup : ('u' : Char) ∈ p := by
    rw [hp]
    by_cases hc : containsSub upat phrase = true
    · simp only [if_pos hc]
      exact mem_of_containsSub hc 'u' (by decide)
    · simp only [if_neg hc]
      exact List.mem_append_right phrase (by decide)
  have hinner : replaceAll tpat t p ≠ [] := by
    intro hin
    rcases replaceAll_eq_nil tpat t p.length p le_rfl hin with h | ⟨-, hall⟩
    · rw [h] at hup
      exact absurd hup (List.not_mem_nil _)
    · exact absurd (hall 'u' hup) (by decide)
  rcases replaceAll_eq_nil upat url _ _ le_rfl hnil with h | ⟨h, -⟩
  · exact hinner h
  · exact hurl h

theorem charWeight_le_two (c : Char) : charWeight c ≤ 2 := by
  unfold charWeight
  split <;> omega

theorem weightedLen_le_two_mul (s : List Char) :
    weightedLen s ≤ 2 * s.length := by
  induction s with
  | nil => simp [weightedLen]
  | cons c cs ih =>
    have := charWeight_le_two c
    simp only [weightedLen, List.map_cons, List.sum_cons, List.length_cons]
    simp only [weightedLen] at ih
    omega

theorem tweetValid_take10 (s : List Char) (hs : s ≠ []) :
    tweetValid (s.take 10) = true := by
  rw [tweetValid_iff]
  constructor
  · simp [List.take_eq_nil_iff, hs]
  · calc weightedLen (s.take 10) ≤ 2 * (s.take 10).length :=
        weightedLen_le_two_mul _
      _ ≤ 2 * 10 := by
        have := List.length_take_le 10 s
        omega
      _ ≤ 280 := by omega

/-- Lemma: `hardTrimWholeText` applied to a non-empty text always produces a
valid text: either the binary search accepted some candidate, or the
ten-character last resort applies, which is always within budget. -/
theorem hardTrimWholeText_valid (s : List Char) (hs : s ≠ []) :
    tweetValid (hardTrimWholeText tweetValid s) = true := by
  show tweetValid (if (bsGo (fun m => tweetValid (candWhole s m)) (candWhole s)
    (s.length + 2) 0 (s.length : Int) []).isEmpty then s.take 10
    else bsGo (fun m => tweetValid (candWhole s m)) (candWhole s)
      (s.length + 2) 0 (s.length : Int) []) = true
  rcases bsGo_weak (fun m => tweetValid (candWhole s m)) (candWhole s)
      (s.length + 2) 0 (s.length : Int) [] with h | ⟨m, hm, h⟩
  · rw [h]
    simp only [List.isEmpty_nil, if_pos]
    exact tweetValid_take10 s hs
  · rw [h]
    have hne : candWhole s m ≠ [] := by
      intro hcand
      rw [hcand] at hm
      rw [tweetValid_iff] at hm
      exact hm.1 rfl
    rw [if_neg (by simpa [List.isEmpty_iff] using hne)]
    exact hm

/-- Claim C6.  For every phrase and title, and every non-empty URL
(the resolver never yields an empty URL, cf. claim C3), the text returned
by `fitTitleTo280` is valid under the (spec-modelled) weighted-length
rule: the published text is never invalid. -/
theorem claim_C6_theorem (phrase rawTitle url : List Char) (hurl : url ≠ []) :
    tweetValid (fitTitleTo280 tweetValid phrase rawTitle url).1 = true := by
  simp only [fitTitleTo280]
  split_ifs with h1 h2 h3 h4 <;>
    first
      | assumption
      | exact hardTrimWholeText_valid _ (renderTemplate_ne_nil _ _ _ hurl)

/-- Claim C6, witness.  A concrete run: phrase `"x {title}"`, title
`"t"`, URL `"u"` — the result text is valid. -/
theorem claim_C6_witness :
    tweetValid (fitTitleTo280 tweetValid ['x', ' ', '{', 't', 'i', 't', 'l',
      'e', '}'] ['t'] ['u']).1 = true :=
  claim_C6_theorem ['x', ' ', '{', 't', 'i', 't', 'l', 'e', '}'] ['t'] ['u']
    (by decide)

/-! ### Claim C3: the URL-resolution cascade of `main` -/

/-- JavaScript `a || b` on strings: `""` is falsy.  A missing value
(`null`/`undefined`) is modelled as the empty list, exactly matching the
`!value` tests of the source. -/
def jsOr (a b : List Char) : List Char := if a = [] then b else a

/-- The URL-resolution cascade in `main`:

    let episodeUrl = await tryExtractSpotifyEpisodeUrlFromPage(episodePage);
    if (!episodeUrl) { ... episodeUrl = await tryResolve...ViaSearch(...); }
    if (!episodeUrl) { episodeUrl = episodePage || rssUrl; }

`s1` is the (network-dependent) result of the page scrape and `s2` the
result of the optional search, both already collapsed to `[]` when absent;
`link`/`guid` are the item's fields (`[]` when absent), with
`episodePage = picked.link || picked.guid`. -/
def resolveEpisodeUrl (s1 s2 link guid rssUrl : List Char) : List Char :=
  let episodePage := jsOr link guid
  let u1 := s1
  let u2 := if u1 = [] then s2 else u1
  if u2 = [] then jsOr episodePage rssUrl else u2

/-- Claim C3.  With a non-empty feed URL (`env("RSS_URL", DEFAULT_RSS)`
is never empty), the resolver cascade always returns a non-empty URL, and
when both the scrape and the search produce nothing it falls back to the
item's link, else its guid, else the feed URL. -/
theorem claim_C3_theorem (s1 s2 link guid rssUrl : List Char)
    (hrss : rssUrl ≠ []) :
    resolveEpisodeUrl s1 s2 link guid rssUrl ≠ [] ∧
    (s1 = [] → s2 = [] →
      resolveEpisodeUrl s1 s2 link guid rssUrl = jsOr (jsOr link guid) rssUrl) := by
  refine ⟨?_, fun h1 h2 => ?_⟩ <;>
    (by_cases hs1 : s1 = [] <;> by_cases hs2 : s2 = [] <;>
      by_cases hl : link = [] <;> by_cases hg : guid = [] <;>
      simp_all [resolveEpisodeUrl, jsOr])

/-- Claim C3, witness.  An item with no link, no guid, and both
resolution steps failing falls through to the feed URL `"r"`, which is
non-empty. -/
theorem claim_C3_witness :
    resolveEpisodeUrl [] [] [] [] ['r'] ≠ [] ∧
    ([] = ([] : List Char) → [] = ([] : List Char) →
      resolveEpisodeUrl [] [] [] [] ['r'] = jsOr (jsOr [] []) ['r']) :=
  claim_C3_theorem [] [] [] [] ['r'] (by decide)

/-! ### Claim C4: search-based resolution accepts the best-scoring candidate -/

/-- The selection loop of `tryResolveSpotifyEpisodeUrlViaSearch`:

    let best = null; let bestScore = -1;
    for (const ep of items) {
      const s = scoreEpisodeMatch(...);
      if (s > bestScore) { bestScore = s; best = ep; }
    }

Scores are rationals (the date-proximity bonus is fractional). -/
def selectBestCandidate {C : Type} (score : C → ℚ) (items : List C) :
    Option C × ℚ :=
  items.foldl (fun acc ep => if score ep > acc.2 then (some ep, score ep)
    else acc) (none, -1)

/-- The pure core of `tryResolveSpotifyEpisodeUrlViaSearch` after the
(externally modelled) HTTP fetch produced the candidate list `items`:

    if (!items.length) return null;
    ...selection loop...
    if (best && bestScore >= 250 && best?.external_urls?.spotify)
      return best.external_urls.spotify;
    return null;

`urlOf` reads `external_urls.spotify` (`[]` when absent). -/
def searchAcceptCore {C : Type} (score : C → ℚ) (urlOf : C → List Char)
    (items : List C) : Option (List Char) :=
  if items.length = 0 then none
  else
    let res := selectBestCandidate score items
    match res.1 with
    | none => none
    | some best => if 250 ≤ res.2 ∧ urlOf best ≠ [] then some (urlOf best)
        else none

/-- Invariant of the selection fold: the final accumulator dominates the
initial score and every scanned score, and it is either untouched, or the
first element whose score strictly exceeds everything before it. -/
theorem selectBestCandidate_fold_spec {C : Type} (score : C → ℚ) :
    ∀ (l : List C) (b₀ : Option C) (s₀ : ℚ),
      s₀ ≤ (l.foldl (fun acc ep => if score ep > acc.2 then (some ep, score ep)
        else acc) (b₀, s₀)).2 ∧
      (∀ c ∈ l, score c ≤ (l.foldl (fun acc ep => if score ep > acc.2 then
        (some ep, score ep) else acc) (b₀, s₀)).2) ∧
      ((l.foldl (fun acc ep => if score ep > acc.2 then (some ep, score ep)
          else acc) (b₀, s₀)) = (b₀, s₀) ∨
        ∃ pre b post, l = pre ++ b :: post ∧
          (l.foldl (fun acc ep => if score ep > acc.2 then (some ep, score ep)
            else acc) (b₀, s₀)).1 = some b ∧
          (l.foldl (fun acc ep => if score ep > acc.2 then (some ep, score ep)
            else acc) (b₀, s₀)).2 = score b ∧
          s₀ < score b ∧ ∀ c ∈ pre, score c < score b) := by
  intro l
  induction l with
  | nil => exact fun b₀ s₀ => ⟨le_rfl, by simp, Or.inl rfl⟩
  | cons x xs ih =>
    intro b₀ s₀
    by_cases hx : score x > s₀
    · have hstep : (x :: xs).foldl (fun acc ep => if score ep > acc.2 then
          (some ep, score ep) else acc) (b₀, s₀) =
          xs.foldl (fun acc ep => if score ep > acc.2 then (some ep, score ep)
            else acc) (some x, score x) := by
        simp [List.foldl_cons, hx]
      obtain ⟨ih1, ih2, ih3⟩ := ih (some x) (score x)
      rw [hstep]
      refine ⟨le_of_lt (lt_of_lt_of_le hx ih1), ?_, ?_⟩
      · intro c hc
        rcases List.mem_cons.mp hc with rfl | hc
        · exact ih1
        · exact ih2 c hc
      · rcases ih3 with heq | ⟨pre, b, post, hsplit, h1, h2, h3, h4⟩
        · right
          exact ⟨[], x, xs, rfl, by rw [heq], by rw [heq], hx, by simp⟩
        · right
          exact ⟨x :: pre, b, post, by rw [hsplit, List.cons_append], h1, h2,
            lt_trans hx h3, fun c hc => by
              rcases List.mem_cons.mp hc with rfl | hc
              · exact h3
              · exact h4 c hc⟩
    · have hstep : (x :: xs).foldl (fun acc ep => if score ep > acc.2 then
          (some ep, score ep) else acc) (b₀, s₀) =
          xs.foldl (fun acc ep => if score ep > acc.2 then (some ep, score ep)
            else acc) (b₀, s₀) := by
        simp [List.foldl_cons, hx]
      obtain ⟨ih1, ih2, ih3⟩ := ih b₀ s₀
      rw [hstep]
      refine ⟨ih1, ?_, ?_⟩
      · intro c hc
        rcases List.mem_cons.mp hc with rfl | hc
        · exact le_trans (not_lt.mp hx) ih1
        · exact ih2 c hc
      · rcases ih3 with heq | ⟨pre, b, post, hsplit, h1, h2, h3, h4⟩
        · exact Or.inl heq
        · right
          exact ⟨x :: pre, b, post, by rw [hsplit, List.cons_append], h1, h2,
            h3, fun c hc => by
              rcases List.mem_cons.mp hc with rfl | hc
              · exact lt_of_le_of_lt (not_lt.mp hx) h3
              · exact h4 c hc⟩

/-- Claim C4.  The search core returns a URL only for the candidate of
maximal score among the returned candidates, only when that maximum clears
the threshold 250, and, in case of ties, for the earliest such candidate
(all earlier candidates score strictly less); when every candidate scores
below 250 it returns no match. -/
theorem claim_C4_theorem {C : Type} (score : C → ℚ) (urlOf : C → List Char)
    (items : List C) :
    (∀ u, searchAcceptCore score urlOf items = some u →
      ∃ pre b post, items = pre ++ b :: post ∧ u = urlOf b ∧
        250 ≤ score b ∧ (∀ c ∈ items, score c ≤ score b) ∧
        (∀ c ∈ pre, score c < score b)) ∧
    ((∀ c ∈ items, score c < 250) → searchAcceptCore score urlOf items = none) := by
  obtain ⟨h1, h2, h3⟩ := selectBestCandidate_fold_spec score items none (-1)
  constructor
  · intro u hu
    unfold searchAcceptCore at hu
    by_cases hlen : items.length = 0
    · rw [if_pos hlen] at hu
      exact absurd hu (by simp)
    · rw [if_neg hlen] at hu
      rcases h3 with heq | ⟨pre, b, post, hsplit, hb1, hb2, hb3, hb4⟩
      · have : (selectBestCandidate score items).1 = none := by
          unfold selectBestCandidate
          rw [heq]
        simp only [this] at hu
        exact absurd hu (by simp)
      · have hres1 : (selectBestCandidate score items).1 = some b := hb1
        simp only [hres1] at hu
        by_cases hcond : 250 ≤ (selectBestCandidate score items).2 ∧
            urlOf b ≠ []
        · rw [if_pos hcond] at hu
          refine ⟨pre, b, post, hsplit, by injection hu with h; rw [← h], ?_,
            ?_, hb4⟩
          · have h250 : (250 : ℚ) ≤ score b := by
              rw [← hb2]
              exact hcond.1
            exact h250
          · intro c hc
            have hc2 := h2 c hc
            rw [hb2] at hc2
            exact hc2
        · rw [if_neg hcond] at hu
          exact absurd hu (by simp)
  · intro hsmall
    unfold searchAcceptCore
    by_cases hlen : items.length = 0
    · rw [if_pos hlen]
    · rw [if_neg hlen]
      rcases h3 with heq | ⟨pre, b, post, hsplit, hb1, hb2, hb3, hb4⟩
      · have : (selectBestCandidate score items).1 = none := by
          unfold selectBestCandidate
          rw [heq]
        simp only [this]
      · have hsel1 : (selectBestCandidate score items).1 = some b := hb1
        simp only [hsel1]
        have hblt : score b < 250 :=
          hsmall b (by rw [hsplit]
                       exact List.mem_append_right _ (List.mem_cons_self b post))
        show (if 250 ≤ (selectBestCandidate score items).2 ∧ urlOf b ≠ []
          then some (urlOf b) else none) = none
        rw [if_neg (by
          rintro ⟨hge, -⟩
          rw [show (selectBestCandidate score items).2 = score b from hb2] at hge
          exact absurd hge (not_le.mpr hblt))]

/-- A score table for the C4 witness: candidate `n` scores `100·n`
(tabulated to keep the rationals kernel-computable), the canonical URL of
`n` is `n` letters `x`. -/
def witScore : ℕ → ℚ := fun n =>
  if n = 1 then 100 else if n = 2 then 200 else if n = 3 then 300 else 0

/-- The canonical-URL field of the C4 witness. -/
def witUrlOf : ℕ → List Char := fun n => List.replicate n 'x'

/-- Claim C4, witness.  On the candidate list `[1, 3, 3, 2]` the core
returns `"xxx"`: the winning candidate is the first `3` (score 300 ≥ 250),
every candidate scores at most 300, and the candidate before it scores
strictly less. -/
theorem claim_C4_witness :
    ∃ pre b post, [1, 3, 3, 2] = pre ++ b :: post ∧
      ['x', 'x', 'x'] = witUrlOf b ∧ 250 ≤ witScore b ∧
      (∀ c ∈ [1, 3, 3, 2], witScore c ≤ witScore b) ∧
      (∀ c ∈ pre, witScore c < witScore b) :=
  (claim_C4_theorem witScore witUrlOf [1, 3, 3, 2]).1 ['x', 'x', 'x']
    (by decide)

/-! ### `normalizeForMatch` (claims C5 and C10) -/

/-- JS `String.prototype.toLowerCase`, modelled on the ASCII range (full
Unicode case mapping is an external concern of the JS runtime; non-ASCII
characters are left unchanged). -/
def asciiLower (c : Char) : Char :=
  if 65 ≤ c.toNat ∧ c.toNat ≤ 90 then Char.ofNat (c.toNat + 32) else c

/-- Model of `s.toLowerCase()`. -/
def toLowerJs (s : List Char) : List Char := s.map asciiLower

/-- The quote characters removed by `.replace(/['’"]/g, "")`:
U+0027, U+2019, U+0022. -/
def isQuote (c : Char) : Bool :=
  c = Char.ofNat 39 ∨ c = '’' ∨ c = Char.ofNat 34

/-- Model of `.replace(/['’"]/g, "")`. -/
def stripQuotes (s : List Char) : List Char := s.filter (fun c => ¬ isQuote c)

/-- The `\p{L}\p{N}` class of `.replace(/[^\p{L}\p{N}\s]/gu, " ")`,
modelled on the ASCII range (the full Unicode letter/number tables are an
external concern; the properties proved below hold for any such class). -/
def isWordChar (c : Char) : Bool := c.isAlphanum

/-- Model of `.replace(/[^\p{L}\p{N}\s]/gu, " ")`: every character that is neither
a letter/number nor whitespace becomes a space. -/
def wordFilter (s : List Char) : List Char :=
  s.map (fun c => if isWordChar c ∨ jsWs c then c else ' ')

/-- Model of `normalizeForMatch(s)`:

    String(s ?? "").normalize("NFKC").toLowerCase()
      .replace(/\s+/g, " ").replace(/['’"]/g, "")
      .replace(/[^\p{L}\p{N}\s]/gu, " ").replace(/\s+/g, " ").trim()

NFKC normalisation is an external Unicode operation and is modelled as the
identity. -/
def normalizeForMatch (s : List Char) : List Char :=
  jsTrim (collapseWs (wordFilter (stripQuotes (collapseWs (toLowerJs s)))))

/-! #### Character-set tracking through the pipeline -/

theorem mem_collapseWsGo {c : Char} :
    ∀ (b : Bool) (s : List Char), c ∈ collapseWsGo b s → c ∈ s ∨ c = ' ' := by
  intro b s
  induction s generalizing b with
  | nil => intro h; simp [collapseWsGo] at h
  | cons x xs ih =>
    intro h
    simp only [collapseWsGo] at h
    by_cases hx : jsWs x
    · rw [if_pos hx] at h
      by_cases hb : b
      · rw [if_pos hb] at h
        rcases ih true h with h | h
        · exact Or.inl (List.mem_cons_of_mem x h)
        · exact Or.inr h
      · rw [if_neg hb] at h
        rcases List.mem_cons.mp h with rfl | h
        · exact Or.inr rfl
        · rcases ih true h with h | h
          · exact Or.inl (List.mem_cons_of_mem x h)
          · exact Or.inr h
    · rw [if_neg hx] at h
      rcases List.mem_cons.mp h with rfl | h
      · exact Or.inl (List.mem_cons_self c xs)
      · rcases ih false h with h | h
        · exact Or.inl (List.mem_cons_of_mem x h)
        · exact Or.inr h

theorem mem_collapseWs {c : Char} {s : List Char} (h : c ∈ collapseWs s) :
    c ∈ s ∨ c = ' ' := mem_collapseWsGo false s h

theorem mem_jsTrim {c : Char} {s : List Char} (h : c ∈ jsTrim s) : c ∈ s := by
  unfold jsTrim at h
  rw [List.mem_reverse] at h
  have h1 := List.dropWhile_suffix (l := (s.dropWhile jsWs).reverse) jsWs
  have h2 := h1.subset h
  rw [List.mem_reverse] at h2
  exact (List.dropWhile_suffix jsWs).subset h2

theorem mem_stripQuotes {c : Char} {s : List Char} (h : c ∈ stripQuotes s) :
    c ∈ s := List.mem_of_mem_filter h

theorem mem_wordFilter {c : Char} {s : List Char} (h : c ∈ wordFilter s) :
    c ∈ s ∨ c = ' ' := by
  unfold wordFilter at h
  rw [List.mem_map] at h
  obtain ⟨d, hd, hc⟩ := h
  by_cases hcond : isWordChar d ∨ jsWs d
  · rw [if_pos hcond] at hc
    exact Or.inl (hc ▸ hd)
  · rw [if_neg hcond] at hc
    exact Or.inr hc.symm

/-- A character property that holds after each pipeline stage transfers to
`normalizeForMatch s` itself, provided it tolerates the space character. -/
theorem mem_normalizeForMatch {c : Char} {s : List Char}
    (h : c ∈ normalizeForMatch s) :
    c ∈ wordFilter (stripQuotes (collapseWs (toLowerJs s))) ∨ c = ' ' := by
  unfold normalizeForMatch at h
  rcases mem_collapseWs (mem_jsTrim h) with h | h
  · exact Or.inl h
  · exact Or.inr h

/-! #### Shape of collapsed whitespace -/

/-- Every whitespace character that `collapseWsGo` emits is a plain
space. -/
theorem collapseWsGo_ws_eq_space {c : Char} :
    ∀ (b : Bool) (s : List Char), c ∈ collapseWsGo b s → jsWs c = true →
      c = ' ' := by
  intro b s
  induction s generalizing b with
  | nil => intro h _; simp [collapseWsGo] at h
  | cons x xs ih =>
    intro h hws
    simp only [collapseWsGo] at h
    by_cases hx : jsWs x
    · rw [if_pos hx] at h
      by_cases hb : b
      · rw [if_pos hb] at h
        exact ih true h hws
      · rw [if_neg hb] at h
        rcases List.mem_cons.mp h with rfl | h
        · rfl
        · exact ih true h hws
    · rw [if_neg hx] at h
      rcases List.mem_cons.mp h with rfl | h
      · rw [hws] at hx
        exact absurd rfl hx
      · exact ih false h hws

/-- In the `true` state the machine first swallows whitespace, so its
output is empty or begins with a non-whitespace character. -/
theorem collapseWsGo_true_head :
    ∀ s : List Char, collapseWsGo true s = [] ∨
      ∃ d ds, collapseWsGo true s = d :: ds ∧ jsWs d = false := by
  intro s
  induction s with
  | nil => exact Or.inl rfl
  | cons x xs ih =>
    simp only [collapseWsGo]
    by_cases hx : jsWs x
    · rw [if_pos hx]
      simpa using ih
    · rw [if_neg hx]
      exact Or.inr ⟨x, collapseWsGo false xs, rfl, Bool.not_eq_true _ ▸ (by
        simpa using hx)⟩

/-- No two adjacent whitespace characters survive the collapse. -/
theorem collapseWsGo_chain :
    ∀ (s : List Char) (b : Bool),
      List.Chain' (fun a d => ¬ (jsWs a = true ∧ jsWs d = true))
        (collapseWsGo b s) := by
  intro s
  induction s with
  | nil => intro b; simp [collapseWsGo]
  | cons x xs ih =>
    intro b
    simp only [collapseWsGo]
    by_cases hx : jsWs x
    · rw [if_pos hx]
      by_cases hb : b
      · rw [if_pos hb]
        exact ih true
      · rw [if_neg hb]
        rcases collapseWsGo_true_head xs with hnil | ⟨d, ds, hcons, hd⟩
        · rw [hnil]
          simp
        · rw [hcons]
          exact List.Chain'.cons (by simp [hd]) (hcons ▸ ih true)
    · rw [if_neg hx]
      rcases hrest : collapseWsGo false xs with _ | ⟨d, ds⟩
      · simp
      · exact List.Chain'.cons (by simp at hx; simp [hx]) (hrest ▸ ih false)

/-- A string whose whitespace is single spaces, never adjacent, is a fixed
point of the collapse. -/
theorem collapseWsGo_eq_self :
    ∀ s : List Char, (∀ c ∈ s, jsWs c = true → c = ' ') →
      List.Chain' (fun a d => ¬ (jsWs a = true ∧ jsWs d = true)) s →
      collapseWsGo false s = s := by
  intro s
  induction s with
  | nil => intro _ _; rfl
  | cons x xs ih =>
    intro hws hchain
    simp only [collapseWsGo]
    by_cases hx : jsWs x
    · rw [if_pos hx]
      have hxsp : x = ' ' := hws x (List.mem_cons_self x xs) (by simpa using hx)
      have hnext : collapseWsGo true xs = collapseWsGo false xs := by
        cases xs with
        | nil => rfl
        | cons d ds =>
          have hd : ¬ (jsWs x = true ∧ jsWs d = true) :=
            (List.chain'_cons.mp hchain).1
          have hdws : jsWs d = false := by
            by_cases h : jsWs d = true
            · exact absurd ⟨by simpa using hx, h⟩ hd
            · simpa using h
          simp only [collapseWsGo, hdws]
          simp
      rw [hnext, hxsp, ih (fun c hc => hws c (List.mem_cons_of_mem x hc))
        (List.chain'_cons'.mp hchain).2]
      simp
    · rw [if_neg hx]
      rw [ih (fun c hc => hws c (List.mem_cons_of_mem x hc))
        (List.chain'_cons'.mp hchain).2]

/-! #### Trimming -/

theorem dropWhile_head_false (p : Char → Bool) :
    ∀ (l : List Char) (d : Char), (l.dropWhile p).head? = some d →
      p d = false := by
  intro l
  induction l with
  | nil => intro d h; simp [List.dropWhile] at h
  | cons x xs ih =>
    intro d h
    by_cases hx : p x
    · rw [List.dropWhile_cons_of_pos hx] at h
      exact ih d h
    · rw [List.dropWhile_cons_of_neg hx] at h
      simp only [List.head?_cons, Option.some_inj] at h
      rw [← h]
      simpa using hx

theorem jsTrim_head (s : List Char) (d : Char)
    (h : (jsTrim s).head? = some d) : jsWs d = false := by
  unfold jsTrim at h
  rw [List.head?_reverse] at h
  -- the last element of the inner dropWhile is the head of the outer one
  set y : List Char := s.dropWhile jsWs with hy
  set z : List Char := y.reverse.dropWhile jsWs with hz
  have hzne : z ≠ [] := by
    intro hnil
    rw [hnil] at h
    simp at h
  have h1 : y.reverse.getLast? = z.getLast? :=
    getLast?_of_suffix (hz ▸ List.dropWhile_suffix jsWs) hzne
  rw [← h1, List.getLast?_reverse] at h
  exact dropWhile_head_false jsWs s d (hy ▸ h)

theorem jsTrim_getLast (s : List Char) (d : Char)
    (h : (jsTrim s).getLast? = some d) : jsWs d = false := by
  unfold jsTrim at h
  rw [List.getLast?_reverse] at h
  exact dropWhile_head_false jsWs _ d h

/-- A string with non-whitespace ends is a fixed point of `trim`. -/
theorem jsTrim_eq_self (s : List Char)
    (hh : ∀ d, s.head? = some d → jsWs d = false)
    (hl : ∀ d, s.getLast? = some d → jsWs d = false) : jsTrim s = s := by
  have h1 : s.dropWhile jsWs = s := by
    cases s with
    | nil => rfl
    | cons x xs =>
      rw [List.dropWhile_cons_of_neg (by
        rw [hh x rfl]
        simp)]
  unfold jsTrim
  rw [h1]
  have h2 : s.reverse.dropWhile jsWs = s.reverse := by
    cases hsr : s.reverse with
    | nil => rfl
    | cons x xs =>
      rw [List.dropWhile_cons_of_neg (by
        have : s.getLast? = some x := by
          rw [← List.head?_reverse, hsr]
          rfl
        rw [hl x this]
        simp)]
  rw [h2, List.reverse_reverse]

/-! #### Idempotence of `normalizeForMatch` (claim C10) -/

theorem charOfNat_toNat {n : ℕ} (h : n < 0xD800) : (Char.ofNat n).toNat = n := by
  unfold Char.ofNat
  split
  · rfl
  · next hcon => exact absurd (by constructor; omega) hcon

/-- The output of `toLowerCase` contains no ASCII capitals. -/
theorem toLowerJs_no_upper {c : Char} {s : List Char} (h : c ∈ toLowerJs s) :
    ¬ (65 ≤ c.toNat ∧ c.toNat ≤ 90) := by
  rw [toLowerJs, List.mem_map] at h
  obtain ⟨d, -, hc⟩ := h
  unfold asciiLower at hc
  by_cases hd : 65 ≤ d.toNat ∧ d.toNat ≤ 90
  · rw [if_pos hd] at hc
    have : c.toNat = d.toNat + 32 := by
      rw [← hc]
      exact charOfNat_toNat (by omega)
    omega
  · rw [if_neg hd] at hc
    rw [← hc]
    exact hd

theorem space_facts : jsWs ' ' = true ∧ isQuote ' ' = false ∧
    ¬ (65 ≤ ' '.toNat ∧ ' '.toNat ≤ 90) := by decide

/-- A quote character is one of three concrete code points, none of which
the word filter lets through unchanged into the letter/number class. -/
theorem isQuote_not_wordChar {c : Char} (h : isQuote c = true) :
    isWordChar c = false := by
  simp only [isQuote, decide_eq_true_eq] at h
  rcases h with rfl | rfl | rfl <;> decide

/-- A quote character is not whitespace either. -/
theorem isQuote_not_ws {c : Char} (h : isQuote c = true) : jsWs c = false := by
  simp only [isQuote, decide_eq_true_eq] at h
  rcases h with rfl | rfl | rfl <;> decide

/-- Characters surviving the word filter are letters/numbers or
whitespace. -/
theorem mem_wordFilter_class {c : Char} {s : List Char}
    (h : c ∈ wordFilter s) : isWordChar c = true ∨ jsWs c = true := by
  rw [wordFilter, List.mem_map] at h
  obtain ⟨d, -, hc⟩ := h
  by_cases hcond : isWordChar d ∨ jsWs d
  · rw [if_pos hcond] at hc
    rw [← hc]
    simpa using hcond
  · rw [if_neg hcond] at hc
    rw [← hc]
    exact Or.inr (by decide)

/-- Characters surviving the quote strip are not quotes. -/
theorem mem_stripQuotes_noQuote {c : Char} {s : List Char}
    (h : c ∈ stripQuotes s) : isQuote c = false := by
  rw [stripQuotes] at h
  have := List.of_mem_filter h
  simpa using this

/-- Claim C10.  `normalizeForMatch` is idempotent. -/
theorem claim_C10_theorem (s : List Char) :
    normalizeForMatch (normalizeForMatch s) = normalizeForMatch s := by
  set r := normalizeForMatch s with hr
  -- character facts about r
  have hclass : ∀ c ∈ r, isWordChar c = true ∨ jsWs c = true := by
    intro c hc
    rcases mem_normalizeForMatch (hr ▸ hc) with h | rfl
    · exact mem_wordFilter_class h
    · exact Or.inr space_facts.1
  have hnoquote : ∀ c ∈ r, isQuote c = false := by
    intro c hc
    rcases mem_normalizeForMatch (hr ▸ hc) with h | rfl
    · rcases mem_wordFilter h with h | rfl
      · exact mem_stripQuotes_noQuote h
      · exact space_facts.2.1
    · exact space_facts.2.1
  have hnoupper : ∀ c ∈ r, ¬ (65 ≤ c.toNat ∧ c.toNat ≤ 90) := by
    intro c hc
    rcases mem_normalizeForMatch (hr ▸ hc) with h | rfl
    · rcases mem_wordFilter h with h | rfl
      · rcases mem_collapseWs (mem_stripQuotes h) with h | rfl
        · exact toLowerJs_no_upper h
        · exact space_facts.2.2
      · exact space_facts.2.2
    · exact space_facts.2.2
  have hwssp : ∀ c ∈ r, jsWs c = true → c = ' ' := by
    intro c hc
    have hc2 : c ∈ normalizeForMatch s := hr ▸ hc
    have hcm := @mem_jsTrim c (collapseWs (wordFilter (stripQuotes
      (collapseWs (toLowerJs s))))) hc2
    exact collapseWsGo_ws_eq_space false _ hcm
  -- whitespace shape of r
  have hchain : List.Chain' (fun a d => ¬ (jsWs a = true ∧ jsWs d = true)) r := by
    have h4 := collapseWsGo_chain
      (wordFilter (stripQuotes (collapseWs (toLowerJs s)))) false
    have h5 := h4.suffix (List.dropWhile_suffix jsWs)
    have h6 : List.Chain' (fun a d => ¬ (jsWs a = true ∧ jsWs d = true))
        ((collapseWs (wordFilter (stripQuotes (collapseWs
          (toLowerJs s))))).dropWhile jsWs).reverse := by
      rw [List.chain'_reverse]
      exact h5.imp (fun a d h => by
        intro hcon
        exact h ⟨hcon.2, hcon.1⟩)
    have h7 := h6.suffix (List.dropWhile_suffix jsWs)
    show List.Chain' _ (jsTrim _)
    unfold jsTrim
    rw [List.chain'_reverse]
    exact h7.imp (fun a d h => by
      intro hcon
      exact h ⟨hcon.2, hcon.1⟩)
  -- the six stages of the second pass are all the identity on r
  have s1 : toLowerJs r = r := by
    rw [toLowerJs]
    apply List.map_congr_left ?_ |>.trans (List.map_id r)
    intro c hc
    show asciiLower c = c
    rw [asciiLower, if_neg (hnoupper c hc)]
  have s2 : collapseWs r = r :=
    collapseWsGo_eq_self r hwssp hchain
  have s3 : stripQuotes r = r := by
    rw [stripQuotes]
    rw [List.filter_eq_self]
    intro c hc
    simpa using hnoquote c hc
  have s4 : wordFilter r = r := by
    rw [wordFilter]
    apply List.map_congr_left ?_ |>.trans (List.map_id r)
    intro c hc
    rw [if_pos (by
      rcases hclass c hc with h | h
      · exact Or.inl h
      · exact Or.inr h)]
    rfl
  have s6 : jsTrim r = r := by
    apply jsTrim_eq_self
    · intro d hd
      exact jsTrim_head _ d hd
    · intro d hd
      exact jsTrim_getLast _ d hd
  show jsTrim (collapseWs (wordFilter (stripQuotes (collapseWs
    (toLowerJs r))))) = r
  rw [s1, s2, s3, s4, s2, s6]

/-! ### Claim C5: `scoreEpisodeMatch` -/

/-- The embedding of a count into the rational score domain, spelled with
`mkRat` so that the kernel can evaluate concrete scores. -/
def qn (n : ℕ) : ℚ := mkRat (Int.ofNat n) 1

theorem qn_eq_cast (n : ℕ) : qn n = (n : ℚ) := by
  rw [qn, Rat.mkRat_eq_div]
  simp

/-- The date-proximity bonus of `scoreEpisodeMatch`
(`if (rssDateISO && spDate) { ... }`), as a named function of the two
optional millisecond timestamps: `none` stands for an absent/falsy ISO
string or an unparseable date (`Number.isFinite` fails), collapsing the
external `new Date(...)` parse. -/
def dateBonus : Option ℚ → Option ℚ → ℚ
  | some r, some sp =>
    let days : ℚ := |r - sp| / 86400000
    max 0 (200 - min 200 (days * 20))
  | _, _ => 0

/-- Model of `scoreEpisodeMatch({ rssTitle, rssDateISO, spName, spDate })`:

    const a = normalizeForMatch(rssTitle);
    const b = normalizeForMatch(spName);
    if (!a || !b) return 0;
    let score = 0;
    if (a === b) score += 1000;
    if (b.includes(a)) score += 300;
    if (a.includes(b)) score += 200;
    const at = new Set(a.split(" "));
    const bt = new Set(b.split(" "));
    let overlap = 0;
    for (const x of at) if (bt.has(x)) overlap++;
    score += overlap * 25;
    if (rssDateISO && spDate) {
      const days = Math.abs(rss - sp) / (1000*60*60*24);
      score += Math.max(0, 200 - Math.min(200, days * 20));
    }
    return score;
-/
def scoreEpisodeMatch (rssTitle : List Char) (rssDate : Option ℚ)
    (spName : List Char) (spDate : Option ℚ) : ℚ :=
  let a := normalizeForMatch rssTitle
  let b := normalizeForMatch spName
  if a = [] ∨ b = [] then 0
  else
    let s1 : ℚ := if a = b then 1000 else 0
    let s2 : ℚ := if containsSub a b then 300 else 0
    let s3 : ℚ := if containsSub b a then 200 else 0
    let overlap : ℕ :=
      ((a.splitOn ' ').dedup.filter (fun t => t ∈ b.splitOn ' ')).length
    let s4 : ℚ := qn overlap * 25
    let s5 : ℚ := dateBonus rssDate spDate
    s1 + s2 + s3 + s4 + s5

theorem isPref_refl (x : List Char) : isPref x x = true :=
  (isPref_iff x x).mpr (List.prefix_refl x)

theorem containsSub_self (x : List Char) : containsSub x x = true := by
  cases x with
  | nil => rfl
  | cons c cs => simp [containsSub, isPref_refl]

/-- The date bonus is between 0 and 200 for any pair of dates. -/
theorem dateBonus_bounds (x y : Option ℚ) :
    0 ≤ dateBonus x y ∧ dateBonus x y ≤ 200 := by
  cases x with
  | none => simp [dateBonus]
  | some r =>
    cases y with
    | none => simp [dateBonus]
    | some sp =>
      show 0 ≤ max 0 (200 - min 200 (|r - sp| / 86400000 * 20)) ∧
        max 0 (200 - min 200 (|r - sp| / 86400000 * 20)) ≤ 200
      constructor
      · exact le_max_left 0 _
      · apply max_le (by norm_num)
        have h0 : (0 : ℚ) ≤ |r - sp| / 86400000 * 20 := by positivity
        have : (0 : ℚ) ≤ min 200 (|r - sp| / 86400000 * 20) :=
          le_min (by norm_num) h0
        linarith

theorem dateBonus_absent {x y : Option ℚ} (h : x = none ∨ y = none) :
    dateBonus x y = 0 := by
  rcases h with rfl | rfl
  · rfl
  · cases x <;> rfl

theorem dateBonus_same (d : ℚ) : dateBonus (some d) (some d) = 200 := by
  show max 0 (200 - min 200 (|d - d| / 86400000 * 20)) = 200
  rw [sub_self, abs_zero, zero_div, zero_mul]
  norm_num

/-- Unfolding of `scoreEpisodeMatch` when both normalized strings are
non-empty.  (Rational addition does not evaluate inside the kernel, so the
concrete facts below are derived from this equation with `norm_num`.) -/
theorem scoreEpisodeMatch_pos_eq (rssTitle spName : List Char)
    (rssDate spDate : Option ℚ)
    (h : ¬ (normalizeForMatch rssTitle = [] ∨ normalizeForMatch spName = [])) :
    scoreEpisodeMatch rssTitle rssDate spName spDate =
      (if normalizeForMatch rssTitle = normalizeForMatch spName
        then (1000 : ℚ) else 0) +
      (if containsSub (normalizeForMatch rssTitle) (normalizeForMatch spName)
        then (300 : ℚ) else 0) +
      (if containsSub (normalizeForMatch spName) (normalizeForMatch rssTitle)
        then (200 : ℚ) else 0) +
      qn ((((normalizeForMatch rssTitle).splitOn ' ').dedup.filter
        (fun t => t ∈ (normalizeForMatch spName).splitOn ' ')).length) * 25 +
      dateBonus rssDate spDate := by
  simp only [scoreEpisodeMatch]
  rw [if_neg h]

theorem scoreEpisodeMatch_zero (rssTitle spName : List Char)
    (rssDate spDate : Option ℚ)
    (h : normalizeForMatch rssTitle = [] ∨ normalizeForMatch spName = []) :
    scoreEpisodeMatch rssTitle rssDate spName spDate = 0 := by
  simp only [scoreEpisodeMatch]
  rw [if_pos h]

/-- Claim C5, amended.  Part 1: if the normalized token sets are
disjoint *and neither normalized string contains the other as a substring*,
and at least one date is absent, the score is exactly 0.  Part 2: a
candidate with identical normalized title and identical date attains the
maximum achievable score against that title. -/
theorem claim_C5_theorem :
    (∀ (rssTitle spName : List Char) (rssDate spDate : Option ℚ),
      (∀ t ∈ (normalizeForMatch rssTitle).splitOn ' ',
        t ∉ (normalizeForMatch spName).splitOn ' ') →
      containsSub (normalizeForMatch rssTitle) (normalizeForMatch spName)
        = false →
      containsSub (normalizeForMatch spName) (normalizeForMatch rssTitle)
        = false →
      (rssDate = none ∨ spDate = none) →
      scoreEpisodeMatch rssTitle rssDate spName spDate = 0) ∧
    (∀ (rssTitle spName other : List Char) (d : ℚ) (otherDate : Option ℚ),
      normalizeForMatch spName = normalizeForMatch rssTitle →
      scoreEpisodeMatch rssTitle (some d) other otherDate ≤
        scoreEpisodeMatch rssTitle (some d) spName (some d)) := by
  constructor
  · -- part 1
    intro rssTitle spName rssDate spDate hdisj hni1 hni2 hdate
    by_cases hab : normalizeForMatch rssTitle = [] ∨
        normalizeForMatch spName = []
    · exact scoreEpisodeMatch_zero _ _ _ _ hab
    · rw [scoreEpisodeMatch_pos_eq _ _ _ _ hab]
      have hne : ¬ normalizeForMatch rssTitle = normalizeForMatch spName := by
        intro heq
        rw [heq, containsSub_self] at hni1
        simp at hni1
      have hov :
          ((normalizeForMatch rssTitle).splitOn ' ').dedup.filter
            (fun t => t ∈ (normalizeForMatch spName).splitOn ' ') = [] := by
        rw [List.filter_eq_nil_iff]
        intro t ht
        have := hdisj t (List.mem_dedup.mp ht)
        simpa using this
      rw [if_neg hne, if_neg (by simp [hni1]), if_neg (by simp [hni2]), hov,
        dateBonus_absent hdate]
      simp only [List.length_nil]
      rw [qn_eq_cast]
      norm_num
  · -- part 2
    intro rssTitle spName other d otherDate heq
    by_cases ha : normalizeForMatch rssTitle = []
    · rw [scoreEpisodeMatch_zero _ _ _ _ (Or.inl ha),
        scoreEpisodeMatch_zero _ _ _ _ (Or.inl ha)]
    · have hrhs0 : ¬ (normalizeForMatch rssTitle = [] ∨
          normalizeForMatch spName = []) := by
        rw [heq]
        simp [ha]
      rw [scoreEpisodeMatch_pos_eq _ _ _ _ hrhs0, heq]
      have hk : ((normalizeForMatch rssTitle).splitOn ' ').dedup.filter
          (fun t => t ∈ (normalizeForMatch rssTitle).splitOn ' ')
          = ((normalizeForMatch rssTitle).splitOn ' ').dedup := by
        rw [List.filter_eq_self]
        intro t ht
        simpa using List.mem_dedup.mp ht
      rw [if_pos rfl, if_pos (containsSub_self _), if_pos (containsSub_self _),
        hk]
      rw [dateBonus_same d]
      by_cases hb : normalizeForMatch other = []
      · rw [scoreEpisodeMatch_zero _ _ _ _ (Or.inr hb)]
        rw [qn_eq_cast]
        positivity
      · rw [scoreEpisodeMatch_pos_eq _ _ _ _ (by simp [ha, hb])]
        have h1 : (if normalizeForMatch rssTitle = normalizeForMatch other
            then (1000 : ℚ) else 0) ≤ 1000 := by
          split <;> norm_num
        have h2 : (if containsSub (normalizeForMatch rssTitle)
            (normalizeForMatch other) then (300 : ℚ) else 0) ≤ 300 := by
          split <;> norm_num
        have h3 : (if containsSub (normalizeForMatch other)
            (normalizeForMatch rssTitle) then (200 : ℚ) else 0) ≤ 200 := by
          split <;> norm_num
        have h4 : qn ((((normalizeForMatch rssTitle).splitOn ' ').dedup.filter
            (fun t => t ∈ (normalizeForMatch other).splitOn ' ')).length) * 25
            ≤ qn (((normalizeForMatch rssTitle).splitOn ' ').dedup.length)
              * 25 := by
          rw [qn_eq_cast, qn_eq_cast]
          have hle := List.length_filter_le
            (fun t => t ∈ (normalizeForMatch other).splitOn ' ')
            ((normalizeForMatch rssTitle).splitOn ' ').dedup
          have hcast : ((((normalizeForMatch rssTitle).splitOn ' ').dedup.filter
              (fun t => t ∈ (normalizeForMatch other).splitOn ' ')).length : ℚ)
              ≤ ((((normalizeForMatch rssTitle).splitOn ' ').dedup.length : ℚ)) := by
            exact_mod_cast hle
          linarith
        have h5 : dateBonus (some d) otherDate ≤ 200 :=
          (dateBonus_bounds (some d) otherDate).2
        linarith

/-- Claim C5, counterexample.  The titles `"ab"` and `"xaby"` have
completely disjoint normalized token sets and no dates, yet the score is
300, not 0: the substring-containment bonus (`"xaby".includes("ab")`)
fires without any shared token. -/
theorem claim_C5_counterexample :
    (∀ t ∈ (normalizeForMatch ['a', 'b']).splitOn ' ',
      t ∉ (normalizeForMatch ['x', 'a', 'b', 'y']).splitOn ' ') ∧
    scoreEpisodeMatch ['a', 'b'] none ['x', 'a', 'b', 'y'] none = 300 ∧
    (300 : ℚ) ≠ 0 := by
  refine ⟨by decide, ?_, by norm_num⟩
  rw [scoreEpisodeMatch_pos_eq _ _ _ _ (by decide)]
  rw [if_neg (by decide), if_pos (by decide), if_neg (by decide)]
  rw [show (((normalizeForMatch ['a', 'b']).splitOn ' ').dedup.filter
    (fun t => t ∈ (normalizeForMatch ['x', 'a', 'b', 'y']).splitOn ' '))
    = [] from by decide]
  rw [dateBonus_absent (Or.inl rfl)]
  simp only [List.length_nil]
  rw [qn_eq_cast]
  norm_num

/-- Claim C5, witness.  Part 1 on `"ab"` vs `"cd"` (disjoint, no
containment, no dates): score 0.  Part 2 on title `"ab"` with itself and
date 5 against the candidate `"zz"` with no date. -/
theorem claim_C5_witness :
    scoreEpisodeMatch ['a', 'b'] none ['c', 'd'] none = 0 ∧
    scoreEpisodeMatch ['a', 'b'] (some 5) ['z', 'z'] none ≤
      scoreEpisodeMatch ['a', 'b'] (some 5) ['a', 'b'] (some 5) :=
  ⟨claim_C5_theorem.1 ['a', 'b'] ['c', 'd'] none none (by decide) (by decide)
    (by decide) (Or.inl rfl),
   claim_C5_theorem.2 ['a', 'b'] ['a', 'b'] ['z', 'z'] 5 none rfl⟩

/-! ### The episode pool selector (claims C7, C8, C9) -/

/-- A feed item, with the fields the pool selector reads.  The date is the
already-parsed `isoDate || pubDate` in milliseconds (`none` for an absent
or unparseable date, which `toDateMs` sends to 0). -/
structure Item where
  title : List Char
  link : List Char
  guid : List Char
  dateMs : Option ℚ
deriving DecidableEq

/-- Model of `toDateMs(item)`: the parsed date, or 0 when absent/`NaN`. -/
def toDateMs (it : Item) : ℚ :=
  match it.dateMs with
  | some ms => ms
  | none => 0

/-- The identity key `it.link || it.guid || it.title`. -/
def keyOf (it : Item) : List Char := jsOr (jsOr it.link it.guid) it.title

/-- Stable descending insertion by `toDateMs`: the model of
`[...items].sort((a, b) => toDateMs(b) - toDateMs(a))` (the JS sort is
required to be stable; ties keep input order). -/
def insertDesc (x : Item) : List Item → List Item
  | [] => [x]
  | y :: ys => if toDateMs y ≤ toDateMs x then x :: y :: ys
      else y :: insertDesc x ys

/-- The stable descending sort of the selector. -/
def sortByDateDesc (items : List Item) : List Item :=
  items.foldr insertDesc []

/-- The loop of `distinctByKey(items, keyFn)`: skip falsy keys, skip seen
keys, keep first occurrences. -/
def dbkGo (keyFn : Item → List Char) (seen : List (List Char)) :
    List Item → List Item
  | [] => []
  | it :: rest =>
    if keyFn it = [] then dbkGo keyFn seen rest
    else if keyFn it ∈ seen then dbkGo keyFn seen rest
    else it :: dbkGo keyFn (keyFn it :: seen) rest

/-- Model of `distinctByKey(items, keyFn)`. -/
def distinctByKey (keyFn : Item → List Char) (items : List Item) :
    List Item := dbkGo keyFn [] items

/-- The placeholder item (never observed: lookups are always in range). -/
def defaultItem : Item := ⟨[], [], [], none⟩

/-- Model of `pickFrom(pool)` of `selectThreeEpisodes`: filter out used or falsy
keys, return `null` on an empty pool, otherwise pick a random candidate
and mark its key used.  Randomness is supplied by the stream `rng`; the
draw counter `n` advances only when a draw happens. -/
def pickFrom (rng : ℕ → ℕ) (used : List (List Char)) (pool : List Item)
    (n : ℕ) : Option Item × List (List Char) × ℕ :=
  let cands := pool.filter (fun it => keyOf it ≠ [] ∧ keyOf it ∉ used)
  if cands = [] then (none, used, n)
  else
    let it := cands.getD (rng n % cands.length) defaultItem
    (some it, keyOf it :: used, n + 1)

/-- Model of `pickFrom(poolA) || pickFrom(poolB)` (the failed first call leaves
`used` and the draw counter untouched). -/
def pickFromOr (rng : ℕ → ℕ) (used : List (List Char))
    (poolA poolB : List Item) (n : ℕ) :
    Option Item × List (List Char) × ℕ :=
  match pickFrom rng used poolA n with
  | (some it, u, n2) => (some it, u, n2)
  | (none, _, _) => pickFrom rng used poolB n

/-- The trailing `while (picked.length < 3)` top-up loop (it runs at most
3 times, so fuel 3 is exact). -/
def fillLoop (rng : ℕ → ℕ) :
    ℕ → List (List Char) → List Item → List Item → ℕ → List Item
  | 0, _, _, picked, _ => picked
  | fuel + 1, used, pool, picked, n =>
    if picked.length < 3 then
      match pickFrom rng used pool n with
      | (none, _, _) => picked
      | (some it, used2, n2) =>
        fillLoop rng fuel used2 pool (picked ++ [it]) n2
    else picked

/-- Model of `selectThreeEpisodes(items)`.  `now` is the external `Date.now()`;
`rng` supplies the `crypto.randomInt` draws. -/
def selectThreeEpisodes (rng : ℕ → ℕ) (now : ℚ) (items : List Item) :
    List Item :=
  let sorted := sortByDateDesc items
  let uniq := distinctByKey keyOf sorted
  if uniq.length ≤ 3 then uniq.take 3
  else
    match uniq with
    | [] => []
    | newest :: restU =>
      let days90 : ℚ := 7776000000
      let recentPool := restU.filter (fun it => now - days90 ≤ toDateMs it)
      let oldPool := restU.filter (fun it => toDateMs it < now - days90)
      let used0 : List (List Char) := [keyOf newest]
      let r2 := pickFromOr rng used0 recentPool restU 0
      let picked1 := match r2.1 with
        | some it => [newest, it]
        | none => [newest]
      let r3 := pickFromOr rng r2.2.1 oldPool restU r2.2.2
      let picked2 := match r3.1 with
        | some it => picked1 ++ [it]
        | none => picked1
      (fillLoop rng 3 r3.2.1 restU picked2 r3.2.2).take 3

/-- The skip-latest pool computation of the bearer-token script:
`const pool = SKIP_LATEST && items.length >= 2 ? items.slice(1) : items;`
(no sorting happens anywhere in that script). -/
def skipLatestPool (skipLatest : Bool) (items : List Item) : List Item :=
  if skipLatest ∧ 2 ≤ items.length then items.drop 1 else items

/-! #### Sorting lemmas -/

theorem mem_insertDesc {x y : Item} :
    ∀ l : List Item, x ∈ insertDesc y l ↔ x = y ∨ x ∈ l := by
  intro l
  induction l with
  | nil => simp [insertDesc]
  | cons z zs ih =>
    simp only [insertDesc]
    by_cases h : toDateMs z ≤ toDateMs y
    · rw [if_pos h]
      simp
    · rw [if_neg h]
      simp only [List.mem_cons, ih]
      tauto

theorem mem_sortByDateDesc {x : Item} :
    ∀ l : List Item, x ∈ sortByDateDesc l ↔ x ∈ l := by
  intro l
  induction l with
  | nil => simp [sortByDateDesc]
  | cons y ys ih =>
    rw [show sortByDateDesc (y :: ys) = insertDesc y (sortByDateDesc ys)
      from rfl, mem_insertDesc, ih]
    simp

theorem insertDesc_pairwise (y : Item) :
    ∀ l : List Item,
      l.Pairwise (fun a b => toDateMs b ≤ toDateMs a) →
      (insertDesc y l).Pairwise (fun a b => toDateMs b ≤ toDateMs a) := by
  intro l
  induction l with
  | nil => intro _; simp [insertDesc]
  | cons z zs ih =>
    intro hp
    rw [List.pairwise_cons] at hp
    simp only [insertDesc]
    by_cases h : toDateMs z ≤ toDateMs y
    · rw [if_pos h]
      rw [List.pairwise_cons]
      refine ⟨?_, List.pairwise_cons.mpr hp⟩
      intro b hb
      rcases List.mem_cons.mp hb with rfl | hb
      · exact h
      · exact le_trans (hp.1 b hb) h
    · rw [if_neg h]
      rw [List.pairwise_cons]
      refine ⟨?_, ih hp.2⟩
      intro b hb
      rcases (mem_insertDesc _).mp hb with rfl | hb
      · exact le_of_lt (lt_of_not_le h)
      · exact hp.1 b hb

theorem sortByDateDesc_pairwise :
    ∀ l : List Item,
      (sortByDateDesc l).Pairwise (fun a b => toDateMs b ≤ toDateMs a) := by
  intro l
  induction l with
  | nil => simp [sortByDateDesc]
  | cons y ys ih =>
    show (insertDesc y (sortByDateDesc ys)).Pairwise _
    exact insertDesc_pairwise y _ ih

/-! #### Deduplication lemmas -/

theorem dbkGo_mem (keyFn : Item → List Char) :
    ∀ (l : List Item) (seen : List (List Char)) (it : Item),
      it ∈ dbkGo keyFn seen l →
      keyFn it ≠ [] ∧ keyFn it ∉ seen ∧ it ∈ l := by
  intro l
  induction l with
  | nil => intro seen it h; simp [dbkGo] at h
  | cons x rest ih =>
    intro seen it h
    simp only [dbkGo] at h
    by_cases h1 : keyFn x = []
    · rw [if_pos h1] at h
      obtain ⟨a, b, c⟩ := ih seen it h
      exact ⟨a, b, List.mem_cons_of_mem x c⟩
    · rw [if_neg h1] at h
      by_cases h2 : keyFn x ∈ seen
      · rw [if_pos h2] at h
        obtain ⟨a, b, c⟩ := ih seen it h
        exact ⟨a, b, List.mem_cons_of_mem x c⟩
      · rw [if_neg h2] at h
        rcases List.mem_cons.mp h with rfl | h
        · exact ⟨h1, h2, List.mem_cons_self it rest⟩
        · obtain ⟨a, b, c⟩ := ih (keyFn x :: seen) it h
          exact ⟨a, fun hc => b (List.mem_cons_of_mem _ hc),
            List.mem_cons_of_mem x c⟩

theorem dbkGo_pairwise (keyFn : Item → List Char) :
    ∀ (l : List Item) (seen : List (List Char)),
      (dbkGo keyFn seen l).Pairwise (fun a b => keyFn a ≠ keyFn b) := by
  intro l
  induction l with
  | nil => intro seen; simp [dbkGo]
  | cons x rest ih =>
    intro seen
    simp only [dbkGo]
    by_cases h1 : keyFn x = []
    · rw [if_pos h1]; exact ih seen
    · rw [if_neg h1]
      by_cases h2 : keyFn x ∈ seen
      · rw [if_pos h2]; exact ih seen
      · rw [if_neg h2]
        rw [List.pairwise_cons]
        refine ⟨?_, ih (keyFn x :: seen)⟩
        intro b hb
        have := (dbkGo_mem keyFn rest (keyFn x :: seen) b hb).2.1
        intro hc
        exact this (hc ▸ List.mem_cons_self _ _)

theorem dbkGo_first (keyFn : Item → List Char) :
    ∀ (l : List Item) (seen : List (List Char)) (it : Item),
      it ∈ dbkGo keyFn seen l →
      ∃ pre post, l = pre ++ it :: post ∧
        ∀ x ∈ pre, keyFn x ≠ keyFn it ∨ keyFn x ∈ seen := by
  intro l
  induction l with
  | nil => intro seen it h; simp [dbkGo] at h
  | cons x rest ih =>
    intro seen it h
    simp only [dbkGo] at h
    by_cases h1 : keyFn x = []
    · rw [if_pos h1] at h
      obtain ⟨pre, post, hsplit, hpre⟩ := ih seen it h
      have hkit := (dbkGo_mem keyFn rest seen it h).1
      exact ⟨x :: pre, post, by rw [hsplit, List.cons_append],
        fun z hz => by
          rcases List.mem_cons.mp hz with rfl | hz
          · exact Or.inl (fun hc => hkit (hc ▸ h1))
          · exact hpre z hz⟩
    · rw [if_neg h1] at h
      by_cases h2 : keyFn x ∈ seen
      · rw [if_pos h2] at h
        obtain ⟨pre, post, hsplit, hpre⟩ := ih seen it h
        exact ⟨x :: pre, post, by rw [hsplit, List.cons_append],
          fun z hz => by
            rcases List.mem_cons.mp hz with rfl | hz
            · exact Or.inr h2
            · exact hpre z hz⟩
      · rw [if_neg h2] at h
        rcases List.mem_cons.mp h with rfl | h
        · exact ⟨[], rest, rfl, by simp⟩
        · obtain ⟨pre, post, hsplit, hpre⟩ := ih (keyFn x :: seen) it h
          have hnot := (dbkGo_mem keyFn rest (keyFn x :: seen) it h).2.1
          have hxne : keyFn x ≠ keyFn it := by
            intro hc
            exact hnot (hc ▸ List.mem_cons_self _ _)
          exact ⟨x :: pre, post, by rw [hsplit, List.cons_append],
            fun z hz => by
              rcases List.mem_cons.mp hz with rfl | hz
              · exact Or.inl hxne
              · rcases hpre z hz with hz2 | hz2
                · exact Or.inl hz2
                · rcases List.mem_cons.mp hz2 with hz3 | hz3
                  · exact Or.inl (hz3 ▸ hxne)
                  · exact Or.inr hz3⟩

theorem dbkGo_complete (keyFn : Item → List Char) :
    ∀ (l : List Item) (seen : List (List Char)) (it : Item),
      it ∈ l → keyFn it ≠ [] → keyFn it ∉ seen →
      ∃ it2 ∈ dbkGo keyFn seen l, keyFn it2 = keyFn it := by
  intro l
  induction l with
  | nil => intro seen it h; simp at h
  | cons x rest ih =>
    intro seen it hmem hk hseen
    simp only [dbkGo]
    rcases List.mem_cons.mp hmem with rfl | hmem
    · rw [if_neg hk, if_neg hseen]
      exact ⟨it, List.mem_cons_self _ _, rfl⟩
    · by_cases h1 : keyFn x = []
      · rw [if_pos h1]
        exact ih seen it hmem hk hseen
      · rw [if_neg h1]
        by_cases h2 : keyFn x ∈ seen
        · rw [if_pos h2]
          exact ih seen it hmem hk hseen
        · rw [if_neg h2]
          by_cases h3 : keyFn it = keyFn x
          · exact ⟨x, List.mem_cons_self _ _, h3.symm⟩
          · obtain ⟨it2, hit2, hkey⟩ := ih (keyFn x :: seen) it hmem hk
              (by
                intro hc
                rcases List.mem_cons.mp hc with hc | hc
                · exact h3 hc
                · exact hseen hc)
            exact ⟨it2, List.mem_cons_of_mem x hit2, hkey⟩

/-! #### The random picks preserve key-distinctness -/

theorem pickFrom_some {rng : ℕ → ℕ} {used : List (List Char)}
    {pool : List Item} {n : ℕ} {it : Item} {u2 : List (List Char)} {n2 : ℕ}
    (h : pickFrom rng used pool n = (some it, u2, n2)) :
    keyOf it ≠ [] ∧ keyOf it ∉ used ∧ u2 = keyOf it :: used := by
  unfold pickFrom at h
  by_cases hc : pool.filter (fun it => keyOf it ≠ [] ∧ keyOf it ∉ used) = []
  · rw [if_pos hc] at h
    simp at h
  · rw [if_neg hc] at h
    simp only [Prod.mk.injEq, Option.some_inj] at h
    obtain ⟨hit, hu2, -⟩ := h
    have hlen : 0 < (pool.filter
        (fun it => keyOf it ≠ [] ∧ keyOf it ∉ used)).length :=
      List.length_pos.mpr hc
    have hmem : (pool.filter (fun it => keyOf it ≠ [] ∧ keyOf it ∉ used)).getD
        (rng n % (pool.filter
          (fun it => keyOf it ≠ [] ∧ keyOf it ∉ used)).length) defaultItem ∈
        pool.filter (fun it => keyOf it ≠ [] ∧ keyOf it ∉ used) := by
      rw [List.getD_eq_getElem?_getD, List.getElem?_eq_getElem
        (Nat.mod_lt _ hlen)]
      exact List.getElem_mem _
    rw [hit] at hmem
    have := List.of_mem_filter hmem
    simp only [decide_eq_true_eq] at this
    exact ⟨this.1, this.2, by rw [← hu2, hit]⟩

theorem pickFrom_none {rng : ℕ → ℕ} {used : List (List Char)}
    {pool : List Item} {n : ℕ} {u2 : List (List Char)} {n2 : ℕ}
    (h : pickFrom rng used pool n = (none, u2, n2)) : u2 = used := by
  unfold pickFrom at h
  by_cases hc : pool.filter (fun it => keyOf it ≠ [] ∧ keyOf it ∉ used) = []
  · rw [if_pos hc] at h
    simp only [Prod.mk.injEq] at h
    exact h.2.1.symm
  · rw [if_neg hc] at h
    simp at h

theorem pickFromOr_some {rng : ℕ → ℕ} {used : List (List Char)}
    {poolA poolB : List Item} {n : ℕ} {it : Item} {u2 : List (List Char)}
    {n2 : ℕ} (h : pickFromOr rng used poolA poolB n = (some it, u2, n2)) :
    keyOf it ≠ [] ∧ keyOf it ∉ used ∧ u2 = keyOf it :: used := by
  unfold pickFromOr at h
  rcases hA : pickFrom rng used poolA n with ⟨oA, uA, nA⟩
  rw [hA] at h
  cases oA with
  | some itA =>
    simp only [Prod.mk.injEq, Option.some_inj] at h
    obtain ⟨h1, h2, -⟩ := h
    obtain ⟨a, b, c⟩ := pickFrom_some hA
    exact ⟨h1 ▸ a, h1 ▸ b, by rw [← h2, c, h1]⟩
  | none => exact pickFrom_some h

theorem pickFromOr_none {rng : ℕ → ℕ} {used : List (List Char)}
    {poolA poolB : List Item} {n : ℕ} {u2 : List (List Char)} {n2 : ℕ}
    (h : pickFromOr rng used poolA poolB n = (none, u2, n2)) : u2 = used := by
  unfold pickFromOr at h
  rcases hA : pickFrom rng used poolA n with ⟨oA, uA, nA⟩
  rw [hA] at h
  cases oA with
  | some itA => simp at h
  | none => exact pickFrom_none h

/-- The invariant carried through the picking phase: every picked key is
marked used, and picked keys are pairwise distinct. -/
def PickInv (used : List (List Char)) (picked : List Item) : Prop :=
  (∀ x ∈ picked, keyOf x ∈ used) ∧
    picked.Pairwise (fun a b => keyOf a ≠ keyOf b)

theorem pickInv_extend {used : List (List Char)} {picked : List Item}
    {it : Item} (hI : PickInv used picked) (hnew : keyOf it ∉ used) :
    PickInv (keyOf it :: used) (picked ++ [it]) := by
  constructor
  · intro x hx
    rcases List.mem_append.mp hx with hx | hx
    · exact List.mem_cons_of_mem _ (hI.1 x hx)
    · simp only [List.mem_singleton] at hx
      rw [hx]
      exact List.mem_cons_self _ _
  · rw [List.pairwise_append]
    refine ⟨hI.2, List.pairwise_singleton _ _, ?_⟩
    intro a ha b hb
    simp only [List.mem_singleton] at hb
    rw [hb]
    intro hc
    exact hnew (hc ▸ hI.1 a ha)

theorem fillLoop_pairwise (rng : ℕ → ℕ) :
    ∀ (fuel : ℕ) (used : List (List Char)) (pool picked : List Item) (n : ℕ),
      PickInv used picked →
      (fillLoop rng fuel used pool picked n).Pairwise
        (fun a b => keyOf a ≠ keyOf b) := by
  intro fuel
  induction fuel with
  | zero => intro used pool picked n hI; exact hI.2
  | succ fuel ih =>
    intro used pool picked n hI
    simp only [fillLoop]
    by_cases hlen : picked.length < 3
    · rw [if_pos hlen]
      rcases hpf : pickFrom rng used pool n with ⟨o, u2, n2⟩
      cases o with
      | none => exact hI.2
      | some it =>
        obtain ⟨-, hnew, hu2⟩ := pickFrom_some hpf
        exact ih u2 pool (picked ++ [it]) n2 (hu2 ▸ pickInv_extend hI hnew)
    · rw [if_neg hlen]
      exact hI.2

theorem fillLoop_head (rng : ℕ → ℕ) :
    ∀ (fuel : ℕ) (used : List (List Char)) (pool picked : List Item) (n : ℕ),
      picked ≠ [] →
      (fillLoop rng fuel used pool picked n).head? = picked.head? := by
  intro fuel
  induction fuel with
  | zero => intro used pool picked n _; rfl
  | succ fuel ih =>
    intro used pool picked n hne
    simp only [fillLoop]
    by_cases hlen : picked.length < 3
    · rw [if_pos hlen]
      rcases hpf : pickFrom rng used pool n with ⟨o, u2, n2⟩
      cases o with
      | none => rfl
      | some it =>
        rw [ih u2 pool (picked ++ [it]) n2 (by simp)]
        cases picked with
        | nil => exact absurd rfl hne
        | cons p ps => rfl
    · rw [if_neg hlen]

theorem head?_take_three {α : Type} (l : List α) :
    (l.take 3).head? = l.head? := by
  cases l <;> rfl

theorem distinctByKey_cons (s₀ : Item) (ss : List Item)
    (hk : keyOf s₀ ≠ []) :
    distinctByKey keyOf (s₀ :: ss) = s₀ :: dbkGo keyOf [keyOf s₀] ss := by
  unfold distinctByKey
  simp only [dbkGo, if_neg hk]
  rw [if_neg (List.not_mem_nil _)]

/-- Whatever the random draws produce, the head of the selector's output is
the head of the deduplicated sorted list. -/
theorem selectThreeEpisodes_head (rng : ℕ → ℕ) (now : ℚ)
    (items : List Item) (s₀ : Item) (restU : List Item)
    (huniq : distinctByKey keyOf (sortByDateDesc items) = s₀ :: restU) :
    (selectThreeEpisodes rng now items).head? = some s₀ := by
  simp only [selectThreeEpisodes]
  rw [huniq]
  by_cases hlen : (s₀ :: restU).length ≤ 3
  · rw [if_pos hlen]
    rfl
  · rw [if_neg hlen]
    rw [head?_take_three]
    rcases hr2 : (pickFromOr rng [keyOf s₀]
        (restU.filter (fun it => now - 7776000000 ≤ toDateMs it)) restU 0).1
      with - | it2 <;>
    rcases hr3 : (pickFromOr rng
        (pickFromOr rng [keyOf s₀]
          (restU.filter (fun it => now - 7776000000 ≤ toDateMs it))
          restU 0).2.1
        (restU.filter (fun it => toDateMs it < now - 7776000000)) restU
        (pickFromOr rng [keyOf s₀]
          (restU.filter (fun it => now - 7776000000 ≤ toDateMs it))
          restU 0).2.2).1
      with - | it3 <;>
    rw [fillLoop_head rng 3 _ _ _ _ (by simp)] <;>
    rfl

/-- Claim C7, amended.  In digest mode, for every input whose items
all have a non-empty identity key and whose deduplicated sorted form has
at least three items, the first element of `selectThreeEpisodes` is an
item of maximal `toDateMs` over the whole input.  (Items with an empty
key are silently dropped by `distinctByKey`, so without the key
hypothesis the claim fails, see the counterexample.) -/
theorem claim_C7_theorem (rng : ℕ → ℕ) (now : ℚ) (items : List Item)
    (hkey : ∀ it ∈ items, keyOf it ≠ [])
    (h3 : 3 ≤ (distinctByKey keyOf (sortByDateDesc items)).length) :
    ∃ h₀, (selectThreeEpisodes rng now items).head? = some h₀ ∧
      h₀ ∈ items ∧ ∀ j ∈ items, toDateMs j ≤ toDateMs h₀ := by
  rcases hs : sortByDateDesc items with - | ⟨s₀, ss⟩
  · rw [hs] at h3
    simp [distinctByKey, dbkGo] at h3
  · have hmem₀ : s₀ ∈ items :=
      (mem_sortByDateDesc items).mp (hs ▸ List.mem_cons_self s₀ ss)
    have hk₀ : keyOf s₀ ≠ [] := hkey s₀ hmem₀
    refine ⟨s₀, ?_, hmem₀, ?_⟩
    · exact selectThreeEpisodes_head rng now items s₀ _
        (by rw [hs, distinctByKey_cons s₀ ss hk₀])
    · intro j hj
      have hjs : j ∈ sortByDateDesc items := (mem_sortByDateDesc items).mpr hj
      rw [hs] at hjs
      rcases List.mem_cons.mp hjs with rfl | hjs
      · exact le_refl _
      · have hp := sortByDateDesc_pairwise items
        rw [hs] at hp
        exact (List.pairwise_cons.mp hp).1 j hjs

/-- A degenerate random stream for concrete runs. -/
def rng0 : ℕ → ℕ := fun _ => 0

/-- The four items of the C7 witness (distinct non-empty keys). -/
def witItemsC7 : List Item :=
  [⟨['a'], [], [], some 4⟩, ⟨['b'], [], [], some 3⟩,
   ⟨['c'], [], [], some 2⟩, ⟨['d'], [], [], some 1⟩]

/-- Claim C7, witness.  On four distinctly-keyed items the head of the
digest selection has the maximal date. -/
theorem claim_C7_witness :
    ∃ h₀, (selectThreeEpisodes rng0 0 witItemsC7).head? = some h₀ ∧
      h₀ ∈ witItemsC7 ∧ ∀ j ∈ witItemsC7, toDateMs j ≤ toDateMs h₀ :=
  claim_C7_theorem rng0 0 witItemsC7 (by decide) (by decide)

/-- An item whose link, guid and title are all empty (falsy key), carrying
the greatest date of the C7 counterexample. -/
def itemBad : Item := ⟨[], [], [], some 100⟩

/-- The remaining items of the C7 counterexample. -/
def itemA : Item := ⟨['a'], [], [], some 3⟩

def itemB : Item := ⟨['b'], [], [], some 2⟩

def itemC : Item := ⟨['c'], [], [], some 1⟩

def cexItemsC7 : List Item := [itemBad, itemA, itemB, itemC]

/-- Claim C7, counterexample.  The deduplicated form of the input has
three distinct items (the empty-keyed `itemBad` is dropped by
`distinctByKey`), yet the first selected item dates strictly before
`itemBad`, which belongs to the input: the head does not attain the
maximum `publishedAt` over the whole input, refuting the claim as
stated. -/
theorem claim_C7_counterexample :
    3 ≤ (distinctByKey keyOf (sortByDateDesc cexItemsC7)).length ∧
    (selectThreeEpisodes rng0 0 cexItemsC7).head? = some itemA ∧
    itemBad ∈ cexItemsC7 ∧ toDateMs itemA < toDateMs itemBad := by
  refine ⟨by decide, by decide, by decide, by decide⟩

theorem pickInv_single (it : Item) : PickInv [keyOf it] [it] := by
  constructor
  · intro x hx
    rw [List.mem_singleton.mp hx]
    exact List.mem_cons_self _ _
  · exact List.pairwise_singleton _ _

/-- Whatever the draws produce, the three selected episodes carry pairwise
distinct identity keys. -/
theorem selectThree_pairwise (rng : ℕ → ℕ) (now : ℚ) (items : List Item) :
    (selectThreeEpisodes rng now items).Pairwise
      (fun a b => keyOf a ≠ keyOf b) := by
  simp only [selectThreeEpisodes]
  by_cases hlen : (distinctByKey keyOf (sortByDateDesc items)).length ≤ 3
  · rw [if_pos hlen]
    exact List.Pairwise.sublist (List.take_sublist 3 _)
      (dbkGo_pairwise keyOf (sortByDateDesc items) [])
  · rw [if_neg hlen]
    rcases hu : distinctByKey keyOf (sortByDateDesc items)
      with - | ⟨newest, restU⟩
    · exact List.Pairwise.nil
    · refine List.Pairwise.sublist (List.take_sublist 3 _) ?_
      generalize hr2 : pickFromOr rng [keyOf newest]
        (restU.filter (fun it => now - 7776000000 ≤ toDateMs it)) restU 0 = r2
      obtain ⟨o2, u2, n2⟩ := r2
      try dsimp only
      generalize hr3 : pickFromOr rng u2
        (restU.filter (fun it => toDateMs it < now - 7776000000)) restU n2 = r3
      obtain ⟨o3, u3, n3⟩ := r3
      try dsimp only
      cases o2 with
      | none =>
        have hu2 := pickFromOr_none hr2
        subst hu2
        cases o3 with
        | none =>
          have hu3 := pickFromOr_none hr3
          subst hu3
          exact fillLoop_pairwise rng 3 _ restU _ n3 (pickInv_single newest)
        | some it3 =>
          obtain ⟨-, hni3, hu3⟩ := pickFromOr_some hr3
          subst hu3
          exact fillLoop_pairwise rng 3 _ restU _ n3
            (pickInv_extend (pickInv_single newest) hni3)
      | some it2 =>
        obtain ⟨-, hni2, hu2⟩ := pickFromOr_some hr2
        subst hu2
        cases o3 with
        | none =>
          have hu3 := pickFromOr_none hr3
          subst hu3
          exact fillLoop_pairwise rng 3 _ restU _ n3
            (pickInv_extend (pickInv_single newest) hni2)
        | some it3 =>
          obtain ⟨-, hni3, hu3⟩ := pickFromOr_some hr3
          subst hu3
          exact fillLoop_pairwise rng 3 _ restU _ n3
            (pickInv_extend (pickInv_extend (pickInv_single newest) hni2) hni3)

/-- Claim C8.  For any input, (i) the selector's final output carries
pairwise distinct identity keys; (ii) so does `distinctByKey`'s output;
(iii) each kept item is the first occurrence of its key in the input
(everything before it in the input has a different key); and (iv) every
input item with a non-empty key keeps a representative of its key. -/
theorem claim_C8_theorem (rng : ℕ → ℕ) (now : ℚ) (items : List Item) :
    ((selectThreeEpisodes rng now items).Pairwise
      (fun a b => keyOf a ≠ keyOf b)) ∧
    ((distinctByKey keyOf items).Pairwise
      (fun a b => keyOf a ≠ keyOf b)) ∧
    (∀ it ∈ distinctByKey keyOf items,
      ∃ pre post, items = pre ++ it :: post ∧
        ∀ x ∈ pre, keyOf x ≠ keyOf it) ∧
    (∀ it ∈ items, keyOf it ≠ [] →
      ∃ it2 ∈ distinctByKey keyOf items, keyOf it2 = keyOf it) := by
  refine ⟨selectThree_pairwise rng now items,
    dbkGo_pairwise keyOf items [], ?_, ?_⟩
  · intro it hit
    obtain ⟨pre, post, hsplit, hpre⟩ := dbkGo_first keyOf items [] it hit
    refine ⟨pre, post, hsplit, fun x hx => ?_⟩
    rcases hpre x hx with h | h
    · exact h
    · exact absurd h (List.not_mem_nil _)
  · intro it hit hk
    exact dbkGo_complete keyOf items [] it hit hk (List.not_mem_nil _)

/-- Three items of which the first two share a key (their titles agree and
link and guid are empty). -/
def witItemsC8 : List Item :=
  [⟨['a'], [], [], some 1⟩, ⟨['a'], [], [], some 2⟩, ⟨['b'], [], [], some 3⟩]

/-- Claim C8, witness.  On a concrete input with a duplicated key the
selection is pairwise key-distinct and the duplicate still has a
representative in the deduplicated list. -/
theorem claim_C8_witness :
    ((selectThreeEpisodes rng0 0 witItemsC8).Pairwise
      (fun a b => keyOf a ≠ keyOf b)) ∧
    ∃ it2 ∈ distinctByKey keyOf witItemsC8,
      keyOf it2 = keyOf (⟨['a'], [], [], some 2⟩ : Item) :=
  ⟨(claim_C8_theorem rng0 0 witItemsC8).1,
   (claim_C8_theorem rng0 0 witItemsC8).2.2.2 ⟨['a'], [], [], some 2⟩
     (by decide) (by decide)⟩

/-- Claim C9, amended.  The bearer-token script computes the pool as
`SKIP_LATEST && items.length >= 2 ? items.slice(1) : items` without any
sorting.  So the claim holds only when the input already arrives sorted by
recency (dates pairwise non-increasing) and has at least two items: then
the dropped head is an item of maximal date and the pool is exactly the
rest. -/
theorem claim_C9_theorem (items : List Item)
    (hsorted : items.Pairwise (fun a b => toDateMs b ≤ toDateMs a))
    (h2 : 2 ≤ items.length) :
    ∃ m rest, items = m :: rest ∧
      (∀ j ∈ items, toDateMs j ≤ toDateMs m) ∧
      skipLatestPool true items = rest := by
  cases items with
  | nil => simp at h2
  | cons m rest =>
    refine ⟨m, rest, rfl, ?_, ?_⟩
    · intro j hj
      rcases List.mem_cons.mp hj with rfl | hj
      · exact le_refl _
      · exact (List.pairwise_cons.mp hsorted).1 j hj
    · unfold skipLatestPool
      rw [if_pos ⟨rfl, h2⟩]
      rfl

/-- A date-descending two-item input for the C9 witness. -/
def witItemsC9 : List Item :=
  [⟨['n'], [], [], some 5⟩, ⟨['o'], [], [], some 1⟩]

/-- Claim C9, witness.  On a sorted two-item input the skip-latest pool
is the input minus its maximal-date head. -/
theorem claim_C9_witness :
    ∃ m rest, witItemsC9 = m :: rest ∧
      (∀ j ∈ witItemsC9, toDateMs j ≤ toDateMs m) ∧
      skipLatestPool true witItemsC9 = rest :=
  claim_C9_theorem witItemsC9 (by decide) (by decide)

/-- The older of the two C9 counterexample items. -/
def oldI : Item := ⟨['o'], [], [], some 1⟩

/-- The more recent of the two C9 counterexample items. -/
def newI : Item := ⟨['n'], [], [], some 5⟩

/-- Claim C9, counterexample.  On the unsorted input `[oldI, newI]`
the skip-latest pool keeps the unique most-recent item `newI` and drops
`oldI` instead: it is not the input with the first-after-sorting-by-recency
item removed, refuting the claim for arbitrary input order. -/
theorem claim_C9_counterexample :
    skipLatestPool true [oldI, newI] = [newI] ∧
    (∀ j ∈ [oldI, newI], toDateMs j ≤ toDateMs newI) ∧
    oldI ∉ skipLatestPool true [oldI, newI] := by
  refine ⟨by decide, by decide, by decide⟩

end RssToX
